import Mathlib

/-!
# Verification of the table-roller engine (`table-roller-node`)

Shallow embedding of the four JavaScript engine scripts of the repository:

* `src/unnamed/part_000`, `src/unnamed/part_001`: the earliest minimal engines
  (not needed by the claims and not embedded);
* `src/index.js`: two scripts separated by a document marker.  The second,
  richer script (lines 344-805, referred to below as the *Idx* variant)
  carries `rollDice`, `weightedRandom` without a weight default, the
  single-pass `processSelectedItem` loop, `rollTable` with set expansion and
  the budget controller with `MAX_REROLL_ATTEMPTS = 100`;
* `src/unnamed/part_002` (the *V2* variant, the newest engine): global
  configuration object, `weightedRandom` with the `item.weight || 1` default,
  mutually recursive `processSelectedItem` / `rollTable`, an effective-limit
  check for item sets, and the controller with `MAX_REROLL_ATTEMPTS = 1000`
  and the `remainingBudget !== null` acceptance test.

JavaScript numbers are modelled by `JsNum` (a rational, `NaN`, or a signed
infinity); randomness (`Math.random()`) by a stream `rand : ℕ → ℚ` of draws
together with an index that each consumer advances; the table repository by a
total function `tables : String → List Entry`; situations where the script
would throw a `TypeError` or where the embedded fuel runs out are signalled
through an `Except` error.
-/

/-! Core Lean marks `Rat.add`, `Rat.mul`, `Rat.sub` and `Rat.inv`
`@[irreducible]`, which blocks kernel evaluation of concrete runs of the
engine.  The embedding therefore computes with `Rat.divInt`-based versions
of the four operations; the `…_eq` lemmas identify them with the ordinary
field operations on `ℚ` for use in proofs. -/

/-- Executable addition on `ℚ`. -/
def qadd (a b : ℚ) : ℚ := Rat.divInt (a.num * b.den + b.num * a.den) (a.den * b.den)

/-- Executable subtraction on `ℚ`. -/
def qsub (a b : ℚ) : ℚ := Rat.divInt (a.num * b.den - b.num * a.den) (a.den * b.den)

/-- Executable multiplication on `ℚ`. -/
def qmul (a b : ℚ) : ℚ := Rat.divInt (a.num * b.num) (a.den * b.den)

/-- Executable division on `ℚ` (agrees with `a / b` for `b ≠ 0`). -/
def qdiv (a b : ℚ) : ℚ := Rat.divInt (a.num * b.den) (a.den * b.num)

theorem qadd_eq (a b : ℚ) : qadd a b = a + b := by
  rw [qadd, Rat.divInt_eq_div]
  push_cast
  conv_rhs => rw [← Rat.num_div_den a, ← Rat.num_div_den b]
  have ha : ((a.den : ℚ)) ≠ 0 := by positivity
  have hb : ((b.den : ℚ)) ≠ 0 := by positivity
  field_simp

theorem qsub_eq (a b : ℚ) : qsub a b = a - b := by
  rw [qsub, Rat.divInt_eq_div]
  push_cast
  conv_rhs => rw [← Rat.num_div_den a, ← Rat.num_div_den b]
  have ha : ((a.den : ℚ)) ≠ 0 := by positivity
  have hb : ((b.den : ℚ)) ≠ 0 := by positivity
  field_simp
  ring

theorem qmul_eq (a b : ℚ) : qmul a b = a * b := by
  rw [qmul, Rat.divInt_eq_div]
  push_cast
  conv_rhs => rw [← Rat.num_div_den a, ← Rat.num_div_den b]
  have ha : ((a.den : ℚ)) ≠ 0 := by positivity
  have hb : ((b.den : ℚ)) ≠ 0 := by positivity
  field_simp

theorem qdiv_eq (a b : ℚ) (h : b ≠ 0) : qdiv a b = a / b := by
  rw [qdiv, Rat.divInt_eq_div]
  push_cast
  have hb0 : (b.num : ℚ) ≠ 0 := by
    simpa [Rat.num_eq_zero] using h
  conv_rhs => rw [← Rat.num_div_den a, ← Rat.num_div_den b]
  have ha : ((a.den : ℚ)) ≠ 0 := by positivity
  have hbd : ((b.den : ℚ)) ≠ 0 := by positivity
  field_simp

/-- A JavaScript number: a rational, `NaN`, or a signed infinity.  (The
engine's arithmetic never needs the distinction between `-0` and `0`, and we
idealise double-precision rounding away, as the scripts only manipulate small
table values.) -/
inductive JsNum where
  | nan : JsNum
  | inf : JsNum
  | ninf : JsNum
  | num : ℚ → JsNum
deriving DecidableEq, Repr

namespace JsNum

/-- JavaScript `+` on numbers. -/
def add : JsNum → JsNum → JsNum
  | nan, _ => nan
  | _, nan => nan
  | inf, ninf => nan
  | ninf, inf => nan
  | inf, _ => inf
  | _, inf => inf
  | ninf, _ => ninf
  | _, ninf => ninf
  | num a, num b => num (qadd a b)

/-- JavaScript `-` on numbers. -/
def sub : JsNum → JsNum → JsNum
  | nan, _ => nan
  | _, nan => nan
  | inf, inf => nan
  | ninf, ninf => nan
  | inf, _ => inf
  | _, inf => ninf
  | ninf, _ => ninf
  | _, ninf => inf
  | num a, num b => num (qsub a b)

/-- JavaScript `*` on numbers. -/
def mul : JsNum → JsNum → JsNum
  | nan, _ => nan
  | _, nan => nan
  | inf, inf => inf
  | inf, ninf => ninf
  | ninf, inf => ninf
  | ninf, ninf => inf
  | inf, num b => if b = 0 then nan else if 0 < b then inf else ninf
  | num a, inf => if a = 0 then nan else if 0 < a then inf else ninf
  | ninf, num b => if b = 0 then nan else if 0 < b then ninf else inf
  | num a, ninf => if a = 0 then nan else if 0 < a then ninf else inf
  | num a, num b => num (qmul a b)

/-- JavaScript `/` on numbers (division by zero gives a signed infinity or
`NaN`, never a thrown error). -/
def div : JsNum → JsNum → JsNum
  | nan, _ => nan
  | _, nan => nan
  | inf, inf => nan
  | inf, ninf => nan
  | ninf, inf => nan
  | ninf, ninf => nan
  | inf, num b => if 0 ≤ b then inf else ninf
  | ninf, num b => if 0 ≤ b then ninf else inf
  | num _, inf => num 0
  | num _, ninf => num 0
  | num a, num b =>
      if b = 0 then (if a = 0 then nan else if 0 < a then inf else ninf)
      else num (qdiv a b)

/-- JavaScript `Math.floor` (`Rat.floor` is the executable floor; the lemma
`ratFloor_eq` below identifies it with `Int.floor`). -/
def floor : JsNum → JsNum
  | nan => nan
  | inf => inf
  | ninf => ninf
  | num a => num (Rat.floor a : ℤ)

/-- JavaScript `<` on numbers (`false` whenever an operand is `NaN`). -/
def ltb : JsNum → JsNum → Bool
  | nan, _ => false
  | _, nan => false
  | inf, _ => false
  | _, inf => true
  | ninf, ninf => false
  | ninf, _ => true
  | _, ninf => false
  | num a, num b => decide (a < b)

/-- JavaScript `>` on numbers. -/
def gtb (a b : JsNum) : Bool := ltb b a

end JsNum

/-- A JSON scalar that the engine's `value`-like fields can hold: a number or
a string (dice notation, multiplier notation, …). -/
inductive JsVal where
  | num : ℚ → JsVal
  | str : String → JsVal
deriving DecidableEq, Repr

/-- JavaScript truthiness of a `value`/`display_value` field: absent,
`0` and `""` are falsy. -/
def valTruthy : Option JsVal → Bool
  | none => false
  | some (.num q) => q ≠ 0
  | some (.str s) => s ≠ ""

/-- JavaScript truthiness of an optional numeric field (absent and `0` are
falsy). -/
def numTruthy : Option ℚ → Bool
  | none => false
  | some q => q ≠ 0

/-- JavaScript truthiness of an optional string field (absent and `""` are
falsy). -/
def strTruthy : Option String → Bool
  | none => false
  | some s => s ≠ ""

/-! ## Random stream

`Math.random()` is modelled as a stream `rand : ℕ → ℚ` of draws; each
consumer takes `rand k` and hands the advanced index `k + 1` (or `k + n`)
to the next consumer, mirroring the strictly sequential draws of the
single-threaded scripts.  A stream is valid when every draw lies in
`[0, 1)`. -/

/-- The stream of `Math.random()` outputs. -/
abbrev RStream := ℕ → ℚ

/-- Validity of a random stream: every draw lies in `[0, 1)`. -/
def RandValid (rand : RStream) : Prop := ∀ k, 0 ≤ rand k ∧ rand k < 1

/-- The executable floor used in the embedding agrees with `Int.floor`. -/
theorem ratFloor_eq (q : ℚ) : Rat.floor q = ⌊q⌋ := by
  rw [Rat.floor_def', Rat.floor_def]


/-! ## Character-level model of the dice-notation regular expressions

`rollDice` (identical in the Idx and V2 scripts) matches its argument against
`/^(\d+d\d+)\s*\*\s*(\d+(?:\.\d+)?)$/i`, `/^(\d+d\d+)\s*\/\s*(\d+(?:\.\d+)?)$/i`
and `/^(\d+)d(\d+)$/i` in this order, and otherwise falls back to
`parseFloat`. -/

/-- Whitespace as matched by the regex class `\s` (the forms that can occur
in the table data). -/
def isWs (c : Char) : Bool := c = ' ' ∨ c = '\t' ∨ c = '\n' ∨ c = '\r'

/-- Numeric value of a digit string. -/
def digitsVal (cs : List Char) : ℕ :=
  cs.foldl (fun a c => 10 * a + (c.toNat - '0'.toNat)) 0

/-- Parse the leading `\d+[dD]\d+` of a dice expression (both `\d+` are
greedy), returning the two numerals and the unconsumed tail. -/
def parseDicePre (cs : List Char) : Option (ℕ × ℕ × List Char) :=
  let d1 := cs.takeWhile Char.isDigit
  if d1 = [] then none else
  match cs.dropWhile Char.isDigit with
  | c :: rest' =>
      if c = 'd' ∨ c = 'D' then
        let d2 := rest'.takeWhile Char.isDigit
        if d2 = [] then none
        else some (digitsVal d1, digitsVal d2, rest'.dropWhile Char.isDigit)
      else none
  | [] => none

/-- Match `^(\d+)d(\d+)$` case-insensitively, returning the two numerals. -/
def matchNdM (cs : List Char) : Option (ℕ × ℕ) :=
  match parseDicePre cs with
  | some (n, m, []) => some (n, m)
  | _ => none

/-- Match `\d+(?:\.\d+)?` against the whole remaining input, returning its
rational value `i + f / 10^(digits of f)`. -/
def matchScalar (cs : List Char) : Option ℚ :=
  let d1 := cs.takeWhile Char.isDigit
  if d1 = [] then none else
  match cs.dropWhile Char.isDigit with
  | [] => some (digitsVal d1 : ℚ)
  | '.' :: rest' =>
      let d2 := rest'.takeWhile Char.isDigit
      if d2 = [] then none
      else if rest'.dropWhile Char.isDigit = [] then
        some (Rat.divInt (digitsVal d1 * 10 ^ d2.length + digitsVal d2) (10 ^ d2.length))
      else none
  | _ => none

/-- Match `^(\d+d\d+)\s*op\s*(\d+(?:\.\d+)?)$` case-insensitively for a fixed
operator character, returning the dice numerals and the scalar. -/
def matchDiceOp (op : Char) (cs : List Char) : Option (ℕ × ℕ × ℚ) :=
  match parseDicePre cs with
  | some (n, m, rest2) =>
      match rest2.dropWhile isWs with
      | o :: rest4 =>
          if o = op then
            match matchScalar (rest4.dropWhile isWs) with
            | some q => some (n, m, q)
            | none => none
          else none
      | [] => none
  | none => none

/-! ## `parseFloat` -/

/-- `leadsWith pat cs` holds when `cs` starts with the pattern `pat`. -/
def leadsWith : List Char → List Char → Bool
  | [], _ => true
  | _ :: _, [] => false
  | a :: as, b :: bs => a = b && leadsWith as bs

/-- JavaScript `parseFloat`: skip leading whitespace, take an optional sign,
then the longest prefix that is `Infinity` or a decimal literal (integer
part, optional fraction, optional exponent); an input with no such prefix
gives `NaN`.  The value is assembled as the exact rational
`sgn · (i·10^|f| + f) · 10^e / 10^|f|`. -/
def parseFloatJs (s : String) : JsNum :=
  let cs0 := (s.toList).dropWhile isWs
  let sgn : ℤ := match cs0 with | '-' :: _ => -1 | _ => 1
  let cs := match cs0 with
    | '-' :: rest => rest
    | '+' :: rest => rest
    | _ => cs0
  if leadsWith "Infinity".toList cs then
    (if sgn = 1 then JsNum.inf else JsNum.ninf)
  else
    let ipart := cs.takeWhile Char.isDigit
    let cs1 := cs.dropWhile Char.isDigit
    let fpart : List Char := match cs1 with
      | '.' :: rest => rest.takeWhile Char.isDigit
      | _ => []
    let cs2 : List Char := match cs1 with
      | '.' :: rest => rest.dropWhile Char.isDigit
      | _ => cs1
    if ipart = [] ∧ fpart = [] then JsNum.nan
    else
      let mantNum : ℤ := digitsVal ipart * 10 ^ fpart.length + digitsVal fpart
      let expo : ℤ :=
        match cs2 with
        | c :: rest =>
            if c = 'e' ∨ c = 'E' then
              let esgn : ℤ := match rest with | '-' :: _ => -1 | _ => 1
              let rest' : List Char := match rest with
                | '-' :: r => r
                | '+' :: r => r
                | _ => rest
              let ed := rest'.takeWhile Char.isDigit
              if ed = [] then 0 else esgn * (digitsVal ed : ℤ)
            else 0
        | [] => 0
      if 0 ≤ expo then
        JsNum.num (Rat.divInt (sgn * mantNum * 10 ^ expo.toNat) (10 ^ fpart.length))
      else
        JsNum.num (Rat.divInt (sgn * mantNum) (10 ^ fpart.length * 10 ^ (-expo).toNat))

/-! ## `rollDice` (Idx script lines 352-391, V2 script lines 18-57; the two
copies are textually identical) -/

/-- Sum of `n` independent uniform draws in `[1, m]`: the loop
`total += Math.floor(Math.random() * sides) + 1` run `count` times.  Returns
the (integer) total together with the advanced stream index. -/
def rollNdM (n m : ℕ) (rand : RStream) (k : ℕ) : ℤ × ℕ :=
  match n with
  | 0 => (0, k)
  | n' + 1 =>
      let die : ℤ := Rat.floor (qmul (rand k) (m : ℚ)) + 1
      let (rest, k') := rollNdM n' m rand (k + 1)
      (die + rest, k')

/-- `rollDice(notation)`.  A number is returned unchanged; `NdM*s` and
`NdM/s` evaluate the base roll (the recursive call in the source always
lands in the bare-`NdM` branch, which is inlined here as `rollNdM`) and
apply the scalar; bare `NdM` sums the draws; any other string is
`parseFloat`ed with `NaN` collapsed to `0`. -/
def rollDice (nota : JsVal) (rand : RStream) (k : ℕ) : JsNum × ℕ :=
  match nota with
  | .num q => (.num q, k)
  | .str s =>
      let cs := s.toList
      match matchDiceOp '*' cs with
      | some (n, m, sc) =>
          let (base, k') := rollNdM n m rand k
          (JsNum.mul (.num (base : ℚ)) (.num sc), k')
      | none =>
      match matchDiceOp '/' cs with
      | some (n, m, sc) =>
          let (base, k') := rollNdM n m rand k
          (JsNum.div (.num (base : ℚ)) (.num sc), k')
      | none =>
      match matchNdM cs with
      | some (n, m) =>
          let (base, k') := rollNdM n m rand k
          (.num (base : ℚ), k')
      | none =>
          match parseFloatJs s with
          | .nan => (.num 0, k)
          | x => (x, k)

/-! ## Facts about `rollNdM` and the matchers (for claim C7) -/

/-- `rollNdM` consumes exactly `n` draws. -/
theorem rollNdM_snd (n m : ℕ) (rand : RStream) (k : ℕ) :
    (rollNdM n m rand k).2 = k + n := by
  induction n generalizing k with
  | zero => simp [rollNdM]
  | succ n ih =>
      simp only [rollNdM]
      rw [ih]
      omega

/-- Each die of `rollNdM` lies in `[1, m]` for a valid stream, so the sum of
`n` dice lies in `[n, n·m]`. -/
theorem rollNdM_bounds {rand : RStream} (hr : RandValid rand) (n m : ℕ)
    (hm : 1 ≤ m) (k : ℕ) :
    (n : ℤ) ≤ (rollNdM n m rand k).1 ∧ (rollNdM n m rand k).1 ≤ (n : ℤ) * m := by
  induction n generalizing k with
  | zero => simp [rollNdM]
  | succ n ih =>
      obtain ⟨hlo, hhi⟩ := ih (k + 1)
      have hdie : (0 : ℤ) ≤ Rat.floor (qmul (rand k) (m : ℚ)) ∧
          Rat.floor (qmul (rand k) (m : ℚ)) ≤ (m : ℤ) - 1 := by
        rw [ratFloor_eq, qmul_eq]
        obtain ⟨h0, h1⟩ := hr k
        constructor
        · exact Int.floor_nonneg.2 (by positivity)
        · have hx : rand k * (m : ℚ) < (m : ℚ) := by
            have hm' : (0 : ℚ) < (m : ℚ) := by exact_mod_cast hm
            nlinarith
          have hlt : ⌊rand k * (m : ℚ)⌋ < (m : ℤ) := Int.floor_lt.2 (by exact_mod_cast hx)
          omega
      constructor
      · simp only [rollNdM]
        push_cast
        omega
      · simp only [rollNdM]
        push_cast
        nlinarith [hdie.1, hdie.2, hlo, hhi]

/-- A string that matches the bare `NdM` regex has no `*`/`/` tail, so the
two operator regexes fail on it. -/
theorem matchDiceOp_none_of_matchNdM (op : Char) (cs : List Char) {nm : ℕ × ℕ}
    (h : matchNdM cs = some nm) : matchDiceOp op cs = none := by
  unfold matchNdM at h
  unfold matchDiceOp
  rcases hp : parseDicePre cs with _ | ⟨n, m, rest2⟩
  · rw [hp] at h
  · rw [hp] at h
    rcases rest2 with _ | ⟨x, xs⟩
    · rfl
    · exact Option.noConfusion h

/-- On a bare-`NdM` string, `rollDice` returns the `rollNdM` sum and consumes
`n` draws. -/
theorem rollDice_NdM (s : String) (n m : ℕ) (rand : RStream) (k : ℕ)
    (h : matchNdM s.toList = some (n, m)) :
    rollDice (.str s) rand k = (.num ((rollNdM n m rand k).1 : ℚ), k + n) := by
  simp only [rollDice, matchDiceOp_none_of_matchNdM '*' _ h,
    matchDiceOp_none_of_matchNdM '/' _ h, h]
  rw [← rollNdM_snd n m rand k]

/-- `JsNum` multiplication on two rationals is rational multiplication. -/
theorem jsMul_num_num (a b : ℚ) : JsNum.mul (.num a) (.num b) = .num (a * b) := by
  show JsNum.num (qmul a b) = _
  rw [qmul_eq]

/-- `JsNum` division on two rationals with a nonzero divisor is rational
division. -/
theorem jsDiv_num_num (a b : ℚ) (hb : b ≠ 0) :
    JsNum.div (.num a) (.num b) = .num (a / b) := by
  show (if b = 0 then _ else JsNum.num (qdiv a b)) = _
  rw [if_neg hb, qdiv_eq a b hb]

/-- `JsNum` addition on two rationals is rational addition. -/
theorem jsAdd_num_num (a b : ℚ) : JsNum.add (.num a) (.num b) = .num (a + b) := by
  show JsNum.num (qadd a b) = _
  rw [qadd_eq]

/-- `JsNum` subtraction on two rationals is rational subtraction. -/
theorem jsSub_num_num (a b : ℚ) : JsNum.sub (.num a) (.num b) = .num (a - b) := by
  show JsNum.num (qsub a b) = _
  rw [qsub_eq]

/-- **C7.**  The dice evaluator `rollDice` is the identity on numeric input;
a string of the form `NdM` returns the sum of `N` independent uniform integer
draws in `[1, M]`; `evaluate("2d6")` is always an integer in `[2, 12]`;
`evaluate("2d6*10")` is `10·z` for an integer `z ∈ [2, 12]`, hence a multiple
of `10` in `[20, 120]`; `evaluate("3d4/2")` is a value in `[0.75, 6]` in
increments of `0.5`; `evaluate(5)` returns `5` unchanged; unparsable strings
such as `"banana"` yield `0`; no branch signals an error. -/
theorem c7_dice_evaluator :
    (∀ (q : ℚ) (rand : RStream) (k : ℕ), rollDice (.num q) rand k = (.num q, k)) ∧
    (∀ (s : String) (n m : ℕ) (rand : RStream) (k : ℕ),
        matchNdM s.toList = some (n, m) →
        rollDice (.str s) rand k = (.num ((rollNdM n m rand k).1 : ℚ), k + n) ∧
        (RandValid rand → 1 ≤ m →
          (n : ℤ) ≤ (rollNdM n m rand k).1 ∧ (rollNdM n m rand k).1 ≤ (n : ℤ) * m)) ∧
    (∀ (rand : RStream) (k : ℕ), RandValid rand →
        ∃ z : ℤ, rollDice (.str "2d6") rand k = (.num (z : ℚ), k + 2) ∧
          2 ≤ z ∧ z ≤ 12) ∧
    (∀ (rand : RStream) (k : ℕ), RandValid rand →
        ∃ z : ℤ, rollDice (.str "2d6*10") rand k = (.num ((z : ℚ) * 10), k + 2) ∧
          2 ≤ z ∧ z ≤ 12) ∧
    (∀ (rand : RStream) (k : ℕ), RandValid rand →
        ∃ v : ℚ, rollDice (.str "3d4/2") rand k = (.num v, k + 3) ∧
          (3 / 4 : ℚ) ≤ v ∧ v ≤ 6 ∧ ∃ w : ℤ, v * 2 = (w : ℚ)) ∧
    (∀ (rand : RStream) (k : ℕ), rollDice (.str "banana") rand k = (.num 0, k)) := by
  refine ⟨fun q rand k => rfl, ?_, ?_, ?_, ?_, fun rand k => rfl⟩
  · intro s n m rand k h
    exact ⟨rollDice_NdM s n m rand k h, fun hr hm => rollNdM_bounds hr n m hm k⟩
  · intro rand k hr
    refine ⟨(rollNdM 2 6 rand k).1, ?_, ?_, ?_⟩
    · exact rollDice_NdM "2d6" 2 6 rand k (by decide)
    · exact_mod_cast (rollNdM_bounds hr 2 6 (by norm_num) k).1
    · have := (rollNdM_bounds hr 2 6 (by norm_num) k).2
      omega
  · intro rand k hr
    refine ⟨(rollNdM 2 6 rand k).1, ?_, ?_, ?_⟩
    · have hop : matchDiceOp '*' ("2d6*10".toList) = some (2, 6, 10) := by decide
      simp only [rollDice, hop]
      rw [← rollNdM_snd 2 6 rand k, jsMul_num_num]
    · exact_mod_cast (rollNdM_bounds hr 2 6 (by norm_num) k).1
    · have := (rollNdM_bounds hr 2 6 (by norm_num) k).2
      omega
  · intro rand k hr
    obtain ⟨hlo, hhi⟩ := rollNdM_bounds hr 3 4 (by norm_num) k
    refine ⟨((rollNdM 3 4 rand k).1 : ℚ) / 2, ?_, ?_, ?_, ⟨(rollNdM 3 4 rand k).1, by ring⟩⟩
    · have hop : matchDiceOp '*' ("3d4/2".toList) = none := by decide
      have hop2 : matchDiceOp '/' ("3d4/2".toList) = some (3, 4, 2) := by decide
      simp only [rollDice, hop, hop2]
      rw [← rollNdM_snd 3 4 rand k, jsDiv_num_num _ _ (by norm_num)]
    · have : (3 : ℚ) ≤ ((rollNdM 3 4 rand k).1 : ℚ) := by exact_mod_cast hlo
      linarith
    · have : ((rollNdM 3 4 rand k).1 : ℚ) ≤ 12 := by exact_mod_cast hhi
      linarith

/-- Witness for C7 at concrete inputs: `evaluate(5) = 5`,
`evaluate("2d6")` with a stream of draws `1/2` is an integer in `[2, 12]`,
and `evaluate("banana") = 0`. -/
theorem c7_dice_evaluator_witness :
    rollDice (.num 5) (fun _ => 0) 0 = (.num 5, 0) ∧
    (∃ z : ℤ, rollDice (.str "2d6") (fun _ => Rat.divInt 1 2) 0 = (.num (z : ℚ), 2) ∧
      2 ≤ z ∧ z ≤ 12) ∧
    rollDice (.str "banana") (fun _ => 0) 7 = (.num 0, 7) := by
  have hv : RandValid (fun _ => Rat.divInt 1 2) := by
    intro k
    constructor
    · show (0 : ℚ) ≤ Rat.divInt 1 2
      decide
    · show Rat.divInt 1 2 < (1 : ℚ)
      decide
  exact ⟨c7_dice_evaluator.1 5 (fun _ => 0) 0,
    by simpa using c7_dice_evaluator.2.2.1 (fun _ => Rat.divInt 1 2) 0 hv,
    c7_dice_evaluator.2.2.2.2.2 (fun _ => 0) 7⟩

/-! ## Data model: table entries

An entry of a table JSON file is either a bare array (an inline item set) or
an object.  An object's `items` field, when it is an array, marks the object
as a weighted set wrapper.  Absent fields are `Option.none`, matching
JavaScript's `undefined`. -/

/-- A `modifier` field: a single tag or an array of tags. -/
inductive ModVal where
  | one : String → ModVal
  | many : List String → ModVal
deriving DecidableEq, Repr

/-- JavaScript truthiness of a `modifier` field (`""` is falsy; an array is
always truthy). -/
def modTruthy : Option ModVal → Bool
  | none => false
  | some (.one s) => s ≠ ""
  | some (.many _) => true

/-- `Array.isArray(modifier) ? modifier : [modifier]`. -/
def ModVal.tags : ModVal → List String
  | .one s => [s]
  | .many l => l

/-- The non-recursive fields of an object entry (absent = `undefined`). -/
structure EFields where
  name : Option String := none
  etype : Option String := none
  value : Option JsVal := none
  display_value : Option JsVal := none
  rarity : Option String := none
  weight : Option ℚ := none
  modifier : Option ModVal := none
  min_value : Option ℚ := none
  max_value : Option ℚ := none
deriving DecidableEq, Repr

/-- A table entry: a bare array (item set) or an object with optional nested
`items`. -/
inductive Entry where
  | arr : List Entry → Entry
  | obj : EFields → Option (List Entry) → Entry
deriving Repr

namespace Entry

/-- Field access; every field of a bare array is `undefined`. -/
def fields : Entry → EFields
  | arr _ => {}
  | obj f _ => f

/-- The `items` field (present only on object wrappers). -/
def items : Entry → Option (List Entry)
  | arr _ => none
  | obj _ it => it

/-- `Array.isArray(item)`. -/
def isArr : Entry → Bool
  | arr _ => true
  | obj _ _ => false

end Entry

/-! ## `weightedRandom`

Two engine variants are embedded:
* variant **A** (`src/index.js`, both scripts, lines 7-46 and 393-432): the
  reduce reads `item.weight` with no default, so an object entry without a
  weight contributes `undefined` and poisons the total with `NaN`;
* variant **B** (`src/unnamed/part_002` lines 59-109): the reduce reads
  `item.weight || 1`.
Both always retain arrays and `items`-wrappers, filter the rest by rarity
(default `'common'`), and fall back to the unfiltered list when the filter
empties it. -/

/-- `item.rarity || 'common'`. -/
def rarityOf (e : Entry) : String :=
  match e.fields.rarity with
  | some r => if r = "" then "common" else r
  | none => "common"

/-- The rarity filter: arrays and `items`-wrappers always pass; other
entries pass when their rarity is allowed. -/
def rarityFilter (items : List Entry) (allowed : List String) : List Entry :=
  items.filter fun it =>
    it.isArr || (it.items).isSome || allowed.contains (rarityOf it)

/-- `itemsToUse`: the filtered list, or the whole list when filtering left
nothing. -/
def itemsToUse (items : List Entry) (allowed : List String) : List Entry :=
  let filtered := rarityFilter items allowed
  if filtered.length > 0 then filtered else items

/-- Weight read of variant A: `1` for a bare array, otherwise `item.weight`
with no default (absent weight = `undefined`; `sum + undefined` is `NaN`). -/
def effWeightA (e : Entry) : JsNum :=
  if e.isArr then .num 1
  else match e.fields.weight with
       | some w => .num w
       | none => .nan

/-- Weight read of variant B: `1` for a bare array, otherwise
`item.weight || 1` (absent and `0` weights fall back to `1`). -/
def effWeightB (e : Entry) : JsNum :=
  if e.isArr then .num 1
  else match e.fields.weight with
       | some w => if w = 0 then .num 1 else .num w
       | none => .num 1

/-- `itemsToUse.reduce((sum, item) => …, 0)`. -/
def totalWeight (wf : Entry → JsNum) (l : List Entry) : JsNum :=
  l.foldl (fun s it => s.add (wf it)) (.num 0)

/-- The selection loop: accumulate cumulative weights and return the first
entry whose interval contains the draw (`undefined` when the loop falls
through). -/
def pickLoop (wf : Entry → JsNum) (random : JsNum) : List Entry → JsNum → Option Entry
  | [], _ => none
  | it :: rest, cw =>
      let cw' := cw.add (wf it)
      if random.ltb cw' then some it else pickLoop wf random rest cw'

/-- Selection over a fixed list: total weight,
`Math.floor(Math.random() * totalWeight)`, then the cumulative scan. -/
def selectFrom (wf : Entry → JsNum) (l : List Entry) (r : ℚ) : Option Entry :=
  let total := totalWeight wf l
  let random := (JsNum.mul (.num r) total).floor
  pickLoop wf random l (.num 0)

/-- `weightedRandom` of the Idx scripts (`src/index.js`). -/
def weightedRandomA (items : List Entry) (allowed : List String) (r : ℚ) : Option Entry :=
  selectFrom effWeightA (itemsToUse items allowed) r

/-- `weightedRandom` of the V2 script (`src/unnamed/part_002`). -/
def weightedRandomB (items : List Entry) (allowed : List String) (r : ℚ) : Option Entry :=
  selectFrom effWeightB (itemsToUse items allowed) r

/-- Modelled from the spec (§3, §4.3): the per-entry weight as the spec
words it — "defaults to 1 if absent", for set wrappers included; an explicit
weight is used as given. -/
def effWeightSpec (e : Entry) : JsNum :=
  match e.fields.weight with
  | some w => .num w
  | none => .num 1

/-- Modelled from the spec: the whole selector with the spec's weight rule,
sharing the engine's filter, fallback, draw and scan. -/
def weightedRandomSpec (items : List Entry) (allowed : List String) (r : ℚ) : Option Entry :=
  selectFrom effWeightSpec (itemsToUse items allowed) r

/-! ## Lemmas on the weighted selector -/

/-- `itemsToUse` only returns members of the input list. -/
theorem itemsToUse_sub (items : List Entry) (allowed : List String) :
    ∀ e ∈ itemsToUse items allowed, e ∈ items := by
  intro e he
  unfold itemsToUse at he
  by_cases h : (rarityFilter items allowed).length > 0
  · rw [if_pos h] at he
    exact (List.mem_filter.1 he).1
  · rwa [if_neg h] at he

/-- `itemsToUse` of a non-empty list is non-empty. -/
theorem itemsToUse_ne_nil (items : List Entry) (allowed : List String)
    (h : items ≠ []) : itemsToUse items allowed ≠ [] := by
  unfold itemsToUse
  by_cases hf : (rarityFilter items allowed).length > 0
  · rw [if_pos hf]
    intro hnil
    rw [hnil] at hf
    simp at hf
  · rwa [if_neg hf]

/-- When all weights are the rationals `g`, the total weight is their sum. -/
theorem totalWeight_num (wf : Entry → JsNum) (g : Entry → ℚ) (l : List Entry)
    (h : ∀ e ∈ l, wf e = .num (g e)) :
    totalWeight wf l = .num ((l.map g).sum) := by
  have aux : ∀ (l' : List Entry), (∀ e ∈ l', wf e = .num (g e)) → ∀ (c : ℚ),
      l'.foldl (fun (s : JsNum) it => s.add (wf it)) (JsNum.num c)
        = .num (c + (l'.map g).sum) := by
    intro l'
    induction l' with
    | nil => intro _ c; simp
    | cons e rest ih =>
        intro h' c
        have he : wf e = .num (g e) := h' e (List.mem_cons_self _ _)
        simp only [List.foldl_cons, he, jsAdd_num_num]
        rw [ih (fun x hx => h' x (List.mem_cons_of_mem e hx)) (c + g e)]
        simp only [List.map_cons, List.sum_cons]
        ring_nf
  simpa using aux l h 0

/-- The scan returns a member whenever the draw lies below the final
cumulative weight and at or above the entry accumulator. -/
theorem pickLoop_mem (wf : Entry → JsNum) (g : Entry → ℚ) (l : List Entry)
    (h : ∀ e ∈ l, wf e = .num (g e)) (z : ℤ) (c : ℚ)
    (hc : c ≤ (z : ℚ)) (hlt : (z : ℚ) < c + (l.map g).sum) :
    ∃ e ∈ l, pickLoop wf (.num (z : ℚ)) l (.num c) = some e := by
  induction l generalizing c with
  | nil =>
      exfalso
      simp at hlt
      exact absurd (lt_of_le_of_lt hc hlt) (lt_irrefl _)
  | cons e rest ih =>
      have he : wf e = .num (g e) := h e (List.mem_cons_self _ _)
      simp only [pickLoop, he, jsAdd_num_num]
      by_cases hfits : (z : ℚ) < c + g e
      · refine ⟨e, List.mem_cons_self _ _, ?_⟩
        rw [if_pos ?_]
        show JsNum.ltb _ _ = true
        simp [JsNum.ltb, hfits]
      · have hrec := ih (fun x hx => h x (List.mem_cons_of_mem e hx)) (c + g e)
          (not_lt.1 hfits) (by simpa [add_assoc] using hlt)
        obtain ⟨x, hx, hpx⟩ := hrec
        refine ⟨x, List.mem_cons_of_mem e hx, ?_⟩
        rw [if_neg ?_]
        · exact hpx
        · show ¬ JsNum.ltb _ _ = true
          simp [JsNum.ltb, hfits]

/-- The scan never fires on a `NaN` draw. -/
theorem pickLoop_nan (wf : Entry → JsNum) (l : List Entry) :
    ∀ cw, pickLoop wf .nan l cw = none := by
  induction l with
  | nil => intro cw; rfl
  | cons e rest ih =>
      intro cw
      simp only [pickLoop, JsNum.ltb]
      exact ih _

/-- The scan never fires when every weight is `0` and the draw is at or
above the accumulator. -/
theorem pickLoop_zero (wf : Entry → JsNum) (l : List Entry)
    (h : ∀ e ∈ l, wf e = .num 0) (z : ℤ) :
    ∀ c : ℚ, ¬ (z : ℚ) < c → pickLoop wf (.num (z : ℚ)) l (.num c) = none := by
  induction l with
  | nil => intro c _; rfl
  | cons e rest ih =>
      intro c hz
      have he : wf e = .num 0 := h e (List.mem_cons_self _ _)
      simp only [pickLoop, he, jsAdd_num_num, add_zero]
      rw [if_neg ?_]
      · exact ih (fun x hx => h x (List.mem_cons_of_mem e hx)) c hz
      · show ¬ JsNum.ltb _ _ = true
        simp [JsNum.ltb]
        exact_mod_cast not_lt.1 hz

/-- A `NaN` weight anywhere poisons the whole total. -/
theorem totalWeight_nan (wf : Entry → JsNum) (l : List Entry) (e : Entry)
    (he : e ∈ l) (hw : wf e = .nan) : totalWeight wf l = .nan := by
  have absorb : ∀ (l' : List Entry),
      l'.foldl (fun (s : JsNum) it => s.add (wf it)) JsNum.nan = .nan := by
    intro l'
    induction l' with
    | nil => rfl
    | cons x rest ih => simpa [JsNum.add] using ih
  have aux : ∀ (l' : List Entry), e ∈ l' → ∀ s : JsNum,
      l'.foldl (fun (s : JsNum) it => s.add (wf it)) s = .nan := by
    intro l'
    induction l' with
    | nil => intro h; exact absurd h (List.not_mem_nil _)
    | cons x rest ih =>
        intro hmem s
        rcases List.mem_cons.1 hmem with hx | hx
        · subst hx
          have : s.add (wf e) = .nan := by
            rw [hw]
            cases s <;> rfl
          simp only [List.foldl_cons, this]
          exact absorb rest
        · exact ih hx _
  exact aux l he _

/-- Totality of the selection core under explicit positive rational weights:
the selector returns a member of the input list. -/
theorem weightedRandom_total (wf : Entry → JsNum) (g : Entry → ℚ)
    (items : List Entry) (allowed : List String) (r : ℚ)
    (hne : items ≠ [])
    (hg : ∀ e ∈ items, wf e = .num (g e))
    (hpos : ∀ e ∈ items, 0 < g e)
    (hr0 : 0 ≤ r) (hr1 : r < 1) :
    ∃ e ∈ items, selectFrom wf (itemsToUse items allowed) r = some e := by
  have hsub := itemsToUse_sub items allowed
  have hlne := itemsToUse_ne_nil items allowed hne
  set l := itemsToUse items allowed with hl
  have hgl : ∀ e ∈ l, wf e = .num (g e) := fun e he => hg e (hsub e he)
  have hposl : ∀ e ∈ l, 0 < g e := fun e he => hpos e (hsub e he)
  have htot : totalWeight wf l = .num ((l.map g).sum) := totalWeight_num wf g l hgl
  set W := (l.map g).sum with hW
  have hWpos : 0 < W := by
    apply List.sum_pos
    · intro x hx
      obtain ⟨e, he, rfl⟩ := List.mem_map.1 hx
      exact hposl e he
    · simpa using hlne
  have hzlo : (0 : ℚ) ≤ (⌊r * W⌋ : ℚ) := by
    exact_mod_cast Int.floor_nonneg.2 (by positivity)
  have hzhi : ((⌊r * W⌋ : ℤ) : ℚ) < 0 + W := by
    have h1 : ((⌊r * W⌋ : ℤ) : ℚ) ≤ r * W := Int.floor_le _
    have h2 : r * W < W := by nlinarith
    linarith
  obtain ⟨e, hel, hpe⟩ := pickLoop_mem wf g l hgl ⌊r * W⌋ 0 hzlo hzhi
  refine ⟨e, hsub e hel, ?_⟩
  show pickLoop wf ((JsNum.mul (.num r) (totalWeight wf l)).floor) l (.num 0) = some e
  rw [htot, jsMul_num_num]
  show pickLoop wf (JsNum.num (Rat.floor (r * W) : ℤ)) l (.num 0) = some e
  rw [ratFloor_eq]
  exact hpe

/-- The total weight only depends on the weights of the listed entries. -/
theorem totalWeight_congr (wf1 wf2 : Entry → JsNum) (l : List Entry)
    (h : ∀ e ∈ l, wf1 e = wf2 e) : totalWeight wf1 l = totalWeight wf2 l := by
  have aux : ∀ (l' : List Entry), (∀ e ∈ l', wf1 e = wf2 e) → ∀ s : JsNum,
      l'.foldl (fun (s : JsNum) it => s.add (wf1 it)) s
        = l'.foldl (fun (s : JsNum) it => s.add (wf2 it)) s := by
    intro l'
    induction l' with
    | nil => intro _ _; rfl
    | cons e rest ih =>
        intro h' s
        simp only [List.foldl_cons, h' e (List.mem_cons_self _ _)]
        exact ih (fun x hx => h' x (List.mem_cons_of_mem e hx)) _
  exact aux l h _

/-- The scan only depends on the weights of the listed entries. -/
theorem pickLoop_congr (wf1 wf2 : Entry → JsNum) (random : JsNum) (l : List Entry)
    (h : ∀ e ∈ l, wf1 e = wf2 e) :
    ∀ cw, pickLoop wf1 random l cw = pickLoop wf2 random l cw := by
  induction l with
  | nil => intro _; rfl
  | cons e rest ih =>
      intro cw
      simp only [pickLoop, h e (List.mem_cons_self _ _)]
      split
      · rfl
      · exact ih (fun x hx => h x (List.mem_cons_of_mem e hx)) _

/-- The whole selection core only depends on the weights of the listed
entries. -/
theorem selectFrom_congr (wf1 wf2 : Entry → JsNum) (l : List Entry) (r : ℚ)
    (h : ∀ e ∈ l, wf1 e = wf2 e) : selectFrom wf1 l r = selectFrom wf2 l r := by
  unfold selectFrom
  rw [totalWeight_congr wf1 wf2 l h]
  exact pickLoop_congr wf1 wf2 _ l h _

/-! ## Claims C5, C6, C10: the weighted selector -/

/-- **C5** (counterexample to the claim as stated).  A two-entry list whose
first entry carries weight `1 > 0` but whose second entry lacks a weight:
the Idx selector's total weight is `NaN`, the draw never lands in any
interval, and the selection is `undefined` — no entry of the input list is
returned. -/
theorem c5_counterexample :
    weightedRandomA [Entry.obj { weight := some 1 } none, Entry.obj {} none]
      ["common"] 0 = none ∧
    (Entry.obj { weight := some 1 } none).fields.weight = some 1 :=
  ⟨rfl, rfl⟩

/-- **C5** (amended).  Whenever rarity filtering leaves no eligible entry,
both selectors fall back to selection over the full unfiltered list; and for
every non-empty entry list all of whose entries carry explicit positive
weights (for the V2 variant: whose explicit weights are positive, absent
ones defaulting to `1`), the selector returns an entry present in the input
list, given a draw in `[0, 1)`. -/
theorem c5_weighted_selector :
    (∀ (items : List Entry) (allowed : List String) (r : ℚ),
        rarityFilter items allowed = [] →
        weightedRandomA items allowed r = selectFrom effWeightA items r ∧
        weightedRandomB items allowed r = selectFrom effWeightB items r) ∧
    (∀ (items : List Entry) (allowed : List String) (r : ℚ),
        items ≠ [] →
        (∀ e ∈ items, e.isArr = false → ∃ w, e.fields.weight = some w ∧ 0 < w) →
        0 ≤ r → r < 1 →
        ∃ e ∈ items, weightedRandomA items allowed r = some e) ∧
    (∀ (items : List Entry) (allowed : List String) (r : ℚ),
        items ≠ [] →
        (∀ e ∈ items, ∀ w, e.fields.weight = some w → 0 < w) →
        0 ≤ r → r < 1 →
        ∃ e ∈ items, weightedRandomB items allowed r = some e) := by
  refine ⟨?_, ?_, ?_⟩
  · intro items allowed r hempty
    constructor
    · unfold weightedRandomA itemsToUse
      rw [hempty]
      rfl
    · unfold weightedRandomB itemsToUse
      rw [hempty]
      rfl
  · intro items allowed r hne hw hr0 hr1
    apply weightedRandom_total effWeightA
      (fun e => if e.isArr then 1 else (e.fields.weight).getD 1) items allowed r hne
      ?_ ?_ hr0 hr1
    · intro e he
      by_cases ha : e.isArr
      · simp [effWeightA, ha]
      · obtain ⟨w, hw', _⟩ := hw e he (by simpa using ha)
        simp [effWeightA, ha, hw']
    · intro e he
      by_cases ha : e.isArr
      · simp [ha]
      · obtain ⟨w, hw', hpos⟩ := hw e he (by simpa using ha)
        simp [ha, hw', hpos]
  · intro items allowed r hne hw hr0 hr1
    apply weightedRandom_total effWeightB
      (fun e => if e.isArr then 1 else
        match e.fields.weight with
        | some w => if w = 0 then 1 else w
        | none => 1) items allowed r hne ?_ ?_ hr0 hr1
    · intro e he
      by_cases ha : e.isArr
      · simp [effWeightB, ha]
      · rcases hwe : e.fields.weight with _ | w
        · simp [effWeightB, ha, hwe]
        · by_cases h0 : w = 0
          · simp [effWeightB, ha, hwe, h0]
          · simp [effWeightB, ha, hwe, h0]
    · intro e he
      by_cases ha : e.isArr
      · simp [ha]
      · rcases hwe : e.fields.weight with _ | w
        · simp [ha, hwe]
        · have hpos := hw e he w hwe
          by_cases h0 : w = 0
          · simp [ha, hwe, h0]
          · simp [ha, hwe, h0, hpos]

/-- Witness for C5 at concrete inputs: a table whose only entry is `rare`
while the allowed band is `common` still selects (fallback), and a
one-entry list with weight `2` selects its entry under both variants. -/
theorem c5_weighted_selector_witness :
    (weightedRandomA [Entry.obj { rarity := some "rare", weight := some 1 } none]
        ["common"] 0
      = selectFrom effWeightA [Entry.obj { rarity := some "rare", weight := some 1 } none] 0) ∧
    (∃ e ∈ [Entry.obj { weight := some 2 } none],
      weightedRandomA [Entry.obj { weight := some 2 } none] ["common"] 0 = some e) ∧
    (∃ e ∈ [Entry.obj { weight := some 2 } none],
      weightedRandomB [Entry.obj { weight := some 2 } none] ["common"] 0 = some e) := by
  refine ⟨(c5_weighted_selector.1
      [Entry.obj { rarity := some "rare", weight := some 1 } none] ["common"] 0 rfl).1,
    c5_weighted_selector.2.1 [Entry.obj { weight := some 2 } none] ["common"] 0
      (by simp) ?_ (by norm_num) (by norm_num),
    c5_weighted_selector.2.2 [Entry.obj { weight := some 2 } none] ["common"] 0
      (by simp) ?_ (by norm_num) (by norm_num)⟩
  · intro e he
    rw [List.mem_singleton] at he
    subst he
    intro _
    exact ⟨2, rfl, by norm_num⟩
  · intro e he
    rw [List.mem_singleton] at he
    subst he
    intro w hw
    simp only [Entry.fields] at hw
    have h2 : w = 2 := by
      simpa using hw.symm
    simp [h2]

/-- **C6** (counterexample to the claim as stated).  In the Idx selector a
lone object entry with no explicit weight is *not* treated as weight `1`:
the total weight is `NaN` and the selection is `undefined`, while the
spec's as-if-1 rule selects the entry. -/
theorem c6_counterexample :
    totalWeight effWeightA [Entry.obj {} none] = .nan ∧
    totalWeight effWeightSpec [Entry.obj {} none] = .num 1 ∧
    weightedRandomA [Entry.obj {} none] ["common"] 0 = none ∧
    weightedRandomSpec [Entry.obj {} none] ["common"] 0 = some (Entry.obj {} none) :=
  ⟨rfl, rfl, rfl, rfl⟩

/-- **C6** (amended).  In the V2 selector (`part_002`), every entry that
lacks an explicit weight — set wrappers included — is charged weight `1`,
both in the total and in the cumulative intervals: provided no entry carries
an explicit weight `0` (which `|| 1` would also coerce to `1`), the selector
coincides with the spec's as-if-1 selector.  In the Idx variants only bare
arrays default to `1`; an object entry without a weight poisons the total
with `NaN` (see the counterexample). -/
theorem c6_weight_default (items : List Entry) (allowed : List String) (r : ℚ)
    (h : ∀ e ∈ items, e.fields.weight ≠ some 0) :
    totalWeight effWeightB (itemsToUse items allowed)
      = totalWeight effWeightSpec (itemsToUse items allowed) ∧
    weightedRandomB items allowed r = weightedRandomSpec items allowed r := by
  have hpt : ∀ e ∈ itemsToUse items allowed, effWeightB e = effWeightSpec e := by
    intro e he
    have hmem := itemsToUse_sub items allowed e he
    have hne := h e hmem
    rcases e with l | ⟨f, it⟩
    · rfl
    · simp only [effWeightB, effWeightSpec, Entry.isArr, Entry.fields]
      rcases hwe : f.weight with _ | w
      · rfl
      · have hne' : f.weight ≠ some 0 := by simpa [Entry.fields] using hne
        rw [hwe] at hne'
        have hw0 : ¬ w = 0 := fun h0 => hne' (by rw [h0])
        simp [hw0]
  exact ⟨totalWeight_congr _ _ _ hpt,
    selectFrom_congr _ _ _ r hpt⟩

/-- Witness for C6: on a two-entry table where one entry has weight `3` and
the other none, the V2 selector and the spec's as-if-1 selector agree. -/
theorem c6_weight_default_witness :
    weightedRandomB [Entry.obj { weight := some 3 } none, Entry.obj {} none]
        ["common"] 0
      = weightedRandomSpec [Entry.obj { weight := some 3 } none, Entry.obj {} none]
        ["common"] 0 :=
  (c6_weight_default
    [Entry.obj { weight := some 3 } none, Entry.obj {} none] ["common"] 0
    (by
      intro e he
      rcases List.mem_cons.1 he with h1 | h1
      · subst h1
        simp [Entry.fields]
      · rw [List.mem_singleton] at h1
        subst h1
        simp [Entry.fields])).2

/-- **C10.**  The Idx selector is partial: it returns `undefined` on an
empty list, when every retained entry has weight `0`, and when any retained
non-array entry lacks a weight (the total weight is then `NaN` and no
cumulative interval ever contains the draw); it is total — returning a
member of the input — once the list is non-empty and every non-array entry
carries an explicit positive weight. -/
theorem c10_selector_partiality :
    (∀ (allowed : List String) (r : ℚ), weightedRandomA [] allowed r = none) ∧
    (∀ (items : List Entry) (allowed : List String) (r : ℚ),
        (∀ e ∈ itemsToUse items allowed, effWeightA e = .num 0) →
        weightedRandomA items allowed r = none) ∧
    (∀ (items : List Entry) (allowed : List String) (r : ℚ),
        (∃ e ∈ itemsToUse items allowed, e.isArr = false ∧ e.fields.weight = none) →
        weightedRandomA items allowed r = none) ∧
    (∀ (items : List Entry) (allowed : List String) (r : ℚ),
        items ≠ [] →
        (∀ e ∈ items, e.isArr = false → ∃ w, e.fields.weight = some w ∧ 0 < w) →
        0 ≤ r → r < 1 →
        ∃ e ∈ items, weightedRandomA items allowed r = some e) := by
  refine ⟨fun _ _ => rfl, ?_, ?_, ?_⟩
  · intro items allowed r h
    show pickLoop effWeightA
        ((JsNum.mul (.num r) (totalWeight effWeightA (itemsToUse items allowed))).floor)
        (itemsToUse items allowed) (.num 0) = none
    have hmap : ((itemsToUse items allowed).map (fun _ => (0 : ℚ))).sum = 0 := by
      simp
    rw [totalWeight_num effWeightA (fun _ => 0) _ h, hmap, jsMul_num_num, mul_zero]
    have hfl : (JsNum.num (0 : ℚ)).floor = .num ((0 : ℤ) : ℚ) := by
      show JsNum.num ((Rat.floor 0 : ℤ) : ℚ) = _
      rw [ratFloor_eq]
      norm_num
    rw [hfl]
    exact pickLoop_zero effWeightA _ h 0 0 (by norm_num)
  · intro items allowed r h
    obtain ⟨e, he, harr, hwe⟩ := h
    show pickLoop effWeightA
        ((JsNum.mul (.num r) (totalWeight effWeightA (itemsToUse items allowed))).floor)
        (itemsToUse items allowed) (.num 0) = none
    have hnan : effWeightA e = .nan := by
      simp [effWeightA, harr, hwe]
    rw [totalWeight_nan effWeightA _ e he hnan]
    exact pickLoop_nan effWeightA _ _
  · intro items allowed r hne hw hr0 hr1
    apply weightedRandom_total effWeightA
      (fun e => if e.isArr then 1 else (e.fields.weight).getD 1) items allowed r hne
      ?_ ?_ hr0 hr1
    · intro e he
      by_cases ha : e.isArr
      · simp [effWeightA, ha]
      · obtain ⟨w, hw', _⟩ := hw e he (by simpa using ha)
        simp [effWeightA, ha, hw']
    · intro e he
      by_cases ha : e.isArr
      · simp [ha]
      · obtain ⟨w, hw', hpos⟩ := hw e he (by simpa using ha)
        simp [ha, hw', hpos]

/-- Witness for C10 at concrete inputs: empty list, an all-zero-weight
list, a list with a missing weight, and a well-weighted list. -/
theorem c10_selector_partiality_witness :
    weightedRandomA [] ["common"] 0 = none ∧
    weightedRandomA [Entry.obj { weight := some 0 } none] ["common"] 0 = none ∧
    weightedRandomA [Entry.obj { weight := some 1 } none, Entry.obj {} none]
      ["common"] 0 = none ∧
    (∃ e ∈ [Entry.obj { weight := some 2 } none],
      weightedRandomA [Entry.obj { weight := some 2 } none] ["common"] 0 = some e) := by
  refine ⟨c10_selector_partiality.1 ["common"] 0,
    c10_selector_partiality.2.1 [Entry.obj { weight := some 0 } none] ["common"] 0 ?_,
    c10_selector_partiality.2.2.1 [Entry.obj { weight := some 1 } none, Entry.obj {} none]
      ["common"] 0 ?_,
    c10_selector_partiality.2.2.2 [Entry.obj { weight := some 2 } none] ["common"] 0
      (by simp) ?_ (by norm_num) (by norm_num)⟩
  · intro e he
    have : e = Entry.obj { weight := some 0 } none := by
      simpa using itemsToUse_sub _ _ e he
    subst this
    rfl
  · refine ⟨Entry.obj {} none, ?_, rfl, rfl⟩
    show Entry.obj {} none ∈ itemsToUse _ _
    have : itemsToUse [Entry.obj { weight := some 1 } none, Entry.obj {} none]
        ["common"] = [Entry.obj { weight := some 1 } none, Entry.obj {} none] := rfl
    rw [this]
    exact List.mem_cons_of_mem _ (List.mem_cons_self _ _)
  · intro e he
    rw [List.mem_singleton] at he
    subst he
    intro _
    exact ⟨2, rfl, by norm_num⟩

/-! ## Special materials -/

/-- A value in a material's per-table map: a fixed numeric bonus or a
multiplier string such as `"2x"`. -/
inductive MatVal where
  | num : ℚ → MatVal
  | str : String → MatVal
deriving DecidableEq, Repr

/-- A special material: a name, a `value` that is the per-terminal-table map
when it is an object (`none` models a non-object value, which the source's
`typeof` check filters out), and an optional weight. -/
structure Material where
  name : String
  value : Option (List (String × MatVal)) := none
  weight : Option ℚ := none
deriving DecidableEq, Repr

/-- First-match lookup in a JSON-object map (`map[key]`). -/
def mapLookup (m : List (String × MatVal)) (key : String) : Option MatVal :=
  match m.find? (fun p => p.1 == key) with
  | some p => some p.2
  | none => none

/-- `selectedMaterial.value[finalItemTable] || null`: a falsy mapped value
(`0` or `""`) collapses to `null`. -/
def matMapped (m : List (String × MatVal)) (key : String) : Option MatVal :=
  match mapLookup m key with
  | some (.num q) => if q = 0 then none else some (.num q)
  | some (.str s) => if s = "" then none else some (.str s)
  | none => none

/-- Weight of a material as read by the Idx script (no default). -/
def matWeightA (m : Material) : JsNum :=
  match m.weight with
  | some w => .num w
  | none => .nan

/-- Weight of a material as read by the V2 script (`weight || 1`). -/
def matWeightB (m : Material) : JsNum :=
  match m.weight with
  | some w => if w = 0 then .num 1 else .num w
  | none => .num 1

/-- The cumulative scan of `weightedRandom`, specialised to materials
(materials are plain objects: no array case, no `items`, no rarity, so the
rarity filter retains them all). -/
def matPickLoop (wf : Material → JsNum) (random : JsNum) :
    List Material → JsNum → Option Material
  | [], _ => none
  | m :: rest, cw =>
      let cw' := cw.add (wf m)
      if random.ltb cw' then some m else matPickLoop wf random rest cw'

/-- `weightedRandom` on a material list. -/
def matSelect (wf : Material → JsNum) (l : List Material) (r : ℚ) : Option Material :=
  let total := l.foldl (fun (s : JsNum) m => s.add (wf m)) (.num 0)
  matPickLoop wf ((JsNum.mul (.num r) total).floor) l (.num 0)

/-! ## Result and halting model -/

/-- The record returned by `processSelectedItem`. -/
structure PResult where
  item : Option Entry
  breadcrumb : List String
  modifiers : List String
  totalValue : JsNum
  maxValue : Option ℚ
  exceeded : Bool
  finalItemTable : Option String
deriving Repr

/-- Abnormal end of an embedded run: the script would throw a `TypeError`,
or the modelling fuel ran out (the script would keep recursing). -/
inductive Halt where
  | thrown : Halt
  | fuelOut : Halt
deriving DecidableEq, Repr

/-- Embedded computations that may throw or diverge. -/
abbrev Res (α : Type) := Except Halt α

/-- JavaScript truthiness of an optional JS number (absent, `0` and `NaN`
are falsy). -/
def jsOptTruthy : Option JsNum → Bool
  | none => false
  | some .nan => false
  | some (.num q) => q ≠ 0
  | some .inf => true
  | some .ninf => true

/-! ## The `special_materials` block (Idx lines 510-548, V2 lines 201-238;
textually identical up to the enclosing `weightedRandom`) -/

/-- Split a modifier tag list: the `special_materials` sentinel goes to the
pending list, every other tag to the plain modifier list, order kept. -/
def collectTags : List String → List String × List String
  | [] => ([], [])
  | t :: ts =>
      let (ms, ps) := collectTags ts
      if t = "special_materials" then (ms, t :: ps) else (t :: ms, ps)

/-- `leadsWith`-based substring test (`String.prototype.includes`). -/
def hasSub (needle : List Char) : List Char → Bool
  | [] => leadsWith needle []
  | c :: cs => leadsWith needle (c :: cs) || hasSub needle cs

/-- `name.toLowerCase().includes(sub)`. -/
def nameIncludes (name sub : String) : Bool :=
  hasSub sub.toList (name.toLower).toList

/-- `value.endsWith("x")`, computed on the character list. -/
def strEndsWithX (s : String) : Bool :=
  match s.toList.getLast? with
  | some c => c == 'x'
  | none => false

/-- `value.slice(0, -1)`: the string without its last character. -/
def strDropLast (s : String) : String :=
  ⟨s.toList.dropLast⟩

/-- The loop over the pending `special_materials` tags: filter the material
set to the ones whose map mentions `finalItemTable`, select one, push its
name, add a numeric mapped value at once, record a multiplier string (the
later one overwriting the earlier).  Parameterised by the enclosing script's
`weightedRandom` (`select`). -/
def applyMaterialsLoop (select : List Material → ℚ → Option Material)
    (mats : List Material) (finalItemTable : Option String) (rand : RStream) :
    List String → List String → JsNum → JsNum → ℕ →
    Res (JsNum × List String × JsNum × ℕ)
  | [], modifiers, totalValue, mult, k => .ok (totalValue, modifiers, mult, k)
  | tag :: pending, modifiers, totalValue, mult, k =>
      if tag = "special_materials" ∧ strTruthy finalItemTable then
        let ft := finalItemTable.getD ""
        let compatible := mats.filter fun m =>
          m.value.isSome && (mapLookup (m.value.getD []) ft).isSome
        if compatible.length > 0 then
          match select compatible (rand k) with
          | none => .error .thrown
          | some mat =>
              let modifiers' := modifiers ++ [mat.name]
              match matMapped (mat.value.getD []) ft with
              | some (.str s) =>
                  if strEndsWithX s then
                    applyMaterialsLoop select mats finalItemTable rand pending
                      modifiers' totalValue (parseFloatJs (strDropLast s)) (k + 1)
                  else
                    applyMaterialsLoop select mats finalItemTable rand pending
                      modifiers' totalValue mult (k + 1)
              | some (.num q) =>
                  applyMaterialsLoop select mats finalItemTable rand pending
                    modifiers' (totalValue.add (.num q)) mult (k + 1)
              | none =>
                  applyMaterialsLoop select mats finalItemTable rand pending
                    modifiers' totalValue mult (k + 1)
        else
          applyMaterialsLoop select mats finalItemTable rand pending
            modifiers totalValue mult k
      else
        applyMaterialsLoop select mats finalItemTable rand pending
          modifiers totalValue mult k

/-- The whole `special_materials` block: run the tag loop starting from
multiplier `1`, then apply the final multiplier once —
`if (materialMultiplier !== 1) totalValue = Math.floor(totalValue * materialMultiplier)`. -/
def applyMaterials (select : List Material → ℚ → Option Material)
    (mats : List Material) (finalItemTable : Option String) (rand : RStream)
    (pending modifiers : List String) (totalValue : JsNum) (k : ℕ) :
    Res (JsNum × List String × ℕ) := do
  let (tv, mods, mult, k') ←
    applyMaterialsLoop select mats finalItemTable rand pending modifiers totalValue (.num 1) k
  if mult ≠ .num 1 then
    return ((tv.mul mult).floor, mods, k')
  else
    return (tv, mods, k')

/-! ## `processSelectedItem` of the Idx script (`src/index.js` lines 435-550) -/

/-- The `display_value` conversion of the Idx leaf handling: roll the
display value, then divide by `100` for copper, multiply by `10` for
platinum, else divide by `10`. -/
def rolledIdx (rand : RStream) (f : EFields) (k : ℕ) : JsNum × ℕ :=
  let dv := rollDice (f.display_value.getD (.num 0)) rand k
  let name := f.name.getD "undefined"
  (if nameIncludes name "copper" then dv.1.div (.num 100)
   else if nameIncludes name "platinum" then dv.1.mul (.num 10)
   else dv.1.div (.num 10), dv.2)

/-- The leaf value step of the Idx `processSelectedItem`: add the converted
`display_value` roll if present, else the `value` roll, else nothing. -/
def leafStepIdx (rand : RStream) (f : EFields) (totalValue : JsNum) (k : ℕ) :
    JsNum × ℕ :=
  if valTruthy f.value then
    if valTruthy f.display_value then
      let dv := rolledIdx rand f k
      (totalValue.add dv.1, dv.2)
    else
      let dv := rollDice (f.value.getD (.num 0)) rand k
      (totalValue.add dv.1, dv.2)
  else (totalValue, k)

/-- The table-reference `while` loop and the leaf handling of the Idx
`processSelectedItem`, carrying the pending special tags.  `fuel` bounds the
number of table hops — the script trusts the data to be acyclic and loops
forever on a cycle. -/
def processLoopIdx (tables : String → List Entry) (mats : List Material)
    (rand : RStream) (allowed : List String) (fuel : ℕ) (selectedItem : Entry)
    (breadcrumb modifiers : List String) (totalValue : JsNum)
    (maxValue : Option ℚ) (finalItemTable : Option String)
    (pending : List String) (k : ℕ) : Res (PResult × ℕ) :=
    if selectedItem.fields.etype = some "table" then
      match fuel with
      | 0 => .error .fuelOut
      | fuel' + 1 =>
          let f := selectedItem.fields
          let name := f.name.getD "undefined"
          let breadcrumb' := breadcrumb ++ [name]
          let tags := if modTruthy f.modifier then
              collectTags (f.modifier.getD (.many [])).tags
            else ([], [])
          let modifiers' := modifiers ++ tags.1
          let pending' := pending ++ tags.2
          let step : JsNum × ℕ :=
            if modTruthy f.modifier ∧ valTruthy f.value then
              let dv := rollDice (f.value.getD (.num 0)) rand k
              (totalValue.add dv.1, dv.2)
            else (totalValue, k)
          let maxValue' := if numTruthy f.max_value then f.max_value else maxValue
          match weightedRandomA (tables name) allowed (rand step.2) with
          | none => .error .thrown
          | some next =>
              processLoopIdx tables mats rand allowed fuel' next breadcrumb' modifiers'
                step.1 maxValue' (some name) pending' (step.2 + 1)
    else
      let f := selectedItem.fields
      let step : JsNum × ℕ := leafStepIdx rand f totalValue k
      match applyMaterials (matSelect matWeightA) mats finalItemTable rand
          pending modifiers step.1 step.2 with
      | .error e => .error e
      | .ok (tv, mods, k₂) =>
          .ok (⟨some selectedItem, breadcrumb, mods, tv, maxValue, false, finalItemTable⟩, k₂)

/-- `processSelectedItem` of the Idx script: the budget-compatibility guard
on the handed entry (`userMaxValue` is the remaining budget the controller
passes in), then the reference walk. -/
def processSelectedItemIdx (tables : String → List Entry) (mats : List Material)
    (rand : RStream) (userMaxValue : Option JsNum) (allowed : List String)
    (fuel : ℕ) (selectedItem : Entry) (breadcrumb modifiers : List String)
    (totalValue : JsNum) (maxValue : Option ℚ) (finalItemTable : Option String)
    (k : ℕ) : Res (PResult × ℕ) :=
  if jsOptTruthy userMaxValue ∧ numTruthy selectedItem.fields.max_value ∧
      JsNum.gtb (.num (selectedItem.fields.max_value.getD 0)) (userMaxValue.getD .nan) then
    .ok (⟨none, breadcrumb, modifiers, totalValue, maxValue, true, finalItemTable⟩, k)
  else if userMaxValue.isSome ∧ numTruthy selectedItem.fields.min_value ∧
      JsNum.gtb (.num (selectedItem.fields.min_value.getD 0)) (userMaxValue.getD .nan) then
    .ok (⟨none, breadcrumb, modifiers, totalValue, maxValue, true, finalItemTable⟩, k)
  else
    processLoopIdx tables mats rand allowed fuel selectedItem breadcrumb modifiers
      totalValue maxValue finalItemTable [] k

/-! ## `rollTable` of the Idx script (`src/index.js` lines 552-628) -/

/-- Executable maximum on `ℚ`. -/
def qmax (a b : ℚ) : ℚ := if a ≤ b then b else a

/-- `Math.max(...validItems.map(i => i.max_value))` over a non-empty list
(the script only takes it after checking `validItems.length > 0`). -/
def maxOfVals : List ℚ → ℚ
  | [] => 0
  | x :: xs => xs.foldl qmax x

/-- The `--max` tier restriction: keep the entries whose truthy `max_value`
does not exceed the ceiling, and among those only the greatest such tier;
when no entry qualifies the restriction is skipped. -/
def filterByMax (tableData : List Entry) (fmv : Option ℚ) : List Entry :=
  match fmv with
  | none => tableData
  | some fv =>
      let valid := tableData.filter fun it =>
        numTruthy it.fields.max_value && decide ((it.fields.max_value.getD 0) ≤ fv)
      if valid.length > 0 then
        let closest := maxOfVals (valid.map fun it => it.fields.max_value.getD 0)
        valid.filter fun it => it.fields.max_value.getD 0 == closest
      else tableData

/-- Exclusive rarity bands: `[0, rare)` → only rare, `[rare, rare+uncommon)`
→ only uncommon, the remainder → only common. -/
def allowedRarities (rareChance uncommonChance : ℚ) (roll : ℚ) : List String :=
  if roll < rareChance then ["rare"]
  else if roll < qadd rareChance uncommonChance then ["uncommon"]
  else ["common"]

/-- A `rollTable` outcome in the Idx script: a single processed item or an
expanded set (`setResults`, `exceeded`, and the wrapper's `maxValue` in the
exceeded case). -/
inductive IdxRoll where
  | single : PResult → IdxRoll
  | set : List PResult → Bool → Option ℚ → IdxRoll
deriving Repr

/-- The member loop of the Idx set expansion: each member is processed
against a fresh copy of the breadcrumb/modifier lists, results and the
running set total are accumulated left to right. -/
def processSetItemsIdx (tables : String → List Entry) (mats : List Material)
    (rand : RStream) (userMaxValue : Option JsNum) (allowed : List String)
    (fuel : ℕ) (breadcrumb modifiers : List String) (totalValue : JsNum)
    (maxValue : Option ℚ) (finalItemTable : Option String) :
    List Entry → List PResult → JsNum → ℕ → Res (List PResult × JsNum × ℕ)
  | [], acc, accSum, k => .ok (acc, accSum, k)
  | it :: rest, acc, accSum, k =>
      match processSelectedItemIdx tables mats rand userMaxValue allowed fuel it
          breadcrumb modifiers totalValue maxValue finalItemTable k with
      | .error e => .error e
      | .ok (r, k') =>
          processSetItemsIdx tables mats rand userMaxValue allowed fuel breadcrumb
            modifiers totalValue maxValue finalItemTable rest
            (acc ++ [r]) (accSum.add r.totalValue) k'

/-- `rollTable` of the Idx script: push the table name, apply the `--max`
restriction, draw the rarity band, weighted-select, then either expand a
set (with the wrapper `max_value` check of lines 616-624) or process the
single selection. -/
def rollTableIdx (tables : String → List Entry) (mats : List Material)
    (rand : RStream) (userMaxValue : Option JsNum) (filterMaxValue : Option ℚ)
    (rareChance uncommonChance : ℚ) (fuel : ℕ) (tableName : String)
    (breadcrumb modifiers : List String) (totalValue : JsNum)
    (maxValue : Option ℚ) (finalItemTable : Option String) (k : ℕ) :
    Res (IdxRoll × ℕ) :=
  let breadcrumb' := breadcrumb ++ [tableName]
  let tableData := filterByMax (tables tableName) filterMaxValue
  let allowed := allowedRarities rareChance uncommonChance (qmul (rand k) 100)
  match weightedRandomA tableData allowed (rand (k + 1)) with
  | none => .error .thrown
  | some selectedItem =>
      let itemsToProcess : Option (List Entry) :=
        match selectedItem with
        | .arr l => some l
        | .obj _ (some l) => some l
        | .obj _ none => none
      match itemsToProcess with
      | some l =>
          match processSetItemsIdx tables mats rand userMaxValue allowed fuel breadcrumb'
              modifiers totalValue maxValue finalItemTable l [] (.num 0) (k + 2) with
          | .error e => .error e
          | .ok (setResults, setTotalValue, k') =>
              if numTruthy selectedItem.fields.max_value ∧
                  JsNum.gtb setTotalValue (.num (selectedItem.fields.max_value.getD 0)) then
                .ok (.set [] true selectedItem.fields.max_value, k')
              else
                .ok (.set setResults false none, k')
      | none =>
          match processSelectedItemIdx tables mats rand userMaxValue allowed fuel
              selectedItem breadcrumb' modifiers totalValue maxValue finalItemTable
              (k + 2) with
          | .error e => .error e
          | .ok (r, k') => .ok (.single r, k')

/-! ## The budget controller of the Idx script (`src/index.js` lines 630-805) -/

/-- `MAX_REROLL_ATTEMPTS` of the Idx script. -/
def MAX_REROLL_IDX : ℕ := 100

/-- `MAX_ITEMS_OUTPUT` (shared hard output cap). -/
def MAX_ITEMS : ℕ := 100

/-- The `targetItemCount` computation of the Idx script. -/
def targetCountIdx (umaxSet : Bool) (numberOfResults : ℕ) : ℕ :=
  if umaxSet then
    (if numberOfResults > 1 then min numberOfResults MAX_ITEMS
     else min MAX_REROLL_IDX MAX_ITEMS)
  else 1

/-- The controller's scan over a set's members: stop at the first violation
(member `exceeded`, or member total above the member's `maxValue`),
accumulating the set total up to the stop. -/
def scanSet : List PResult → JsNum → Bool × JsNum
  | [], sum => (false, sum)
  | r :: rest, sum =>
      if r.exceeded then (true, sum)
      else if numTruthy r.maxValue ∧ JsNum.gtb r.totalValue (.num (r.maxValue.getD 0)) then
        (true, sum)
      else scanSet rest (sum.add r.totalValue)

/-- The Idx controller's reroll test.  Note `remainingBudget && …`: a
remaining budget of exactly `0` is falsy and disables the budget test. -/
def shouldRerollIdx (remaining : Option JsNum) (res : IdxRoll) : Bool :=
  match res with
  | .set rs exceeded _ =>
      if exceeded then true
      else
        let scan := scanSet rs (.num 0)
        scan.1 || (jsOptTruthy remaining && JsNum.gtb scan.2 (remaining.getD .nan))
  | .single r =>
      r.exceeded
        || (numTruthy r.maxValue && JsNum.gtb r.totalValue (.num (r.maxValue.getD 0)))
        || (jsOptTruthy remaining && JsNum.gtb r.totalValue (remaining.getD .nan))

/-- The inner reroll loop of the Idx controller: roll, reroll on a rejected
outcome, give up (`none`) once the attempt ceiling is hit. -/
def tryRollIdx (tables : String → List Entry) (mats : List Material)
    (rand : RStream) (umaxCLI : Option ℚ) (fmv : Option ℚ) (rare unc : ℚ)
    (fuel : ℕ) (origin : String) (accumulated : JsNum) :
    ℕ → ℕ → Res (Option IdxRoll × ℕ × ℕ)
  | 0, k => .ok (none, k, 0)
  | left + 1, k =>
      let remaining : Option JsNum :=
        if numTruthy umaxCLI then some ((JsNum.num (umaxCLI.getD 0)).sub accumulated)
        else none
      match rollTableIdx tables mats rand remaining fmv rare unc fuel origin
          [] [] (.num 0) none none k with
      | .error e => .error e
      | .ok (res, k') =>
          if shouldRerollIdx remaining res then
            if left = 0 then .ok (none, k', 1)
            else
              match tryRollIdx tables mats rand umaxCLI fmv rare unc fuel origin
                  accumulated left k' with
              | .error e => .error e
              | .ok (o, k'', used) => .ok (o, k'', used + 1)
          else .ok (some res, k', 1)

/-- Append every member of an accepted set, adding each `totalValue` and
counting attempts. -/
def addSetIdx : List PResult → List PResult × JsNum × ℕ → List PResult × JsNum × ℕ
  | [], st => st
  | r :: rest, (results, accumulated, attempts) =>
      addSetIdx rest (results ++ [r], accumulated.add r.totalValue, attempts + 1)

/-- One result-set slot of the Idx controller: accept rolls until a stop
condition fires (`!userMaxValue`, the target item count, or the attempt
ceiling), or until a reroll loop gives up. -/
def ctrlSlotIdx (tables : String → List Entry) (mats : List Material)
    (rand : RStream) (umaxCLI : Option ℚ) (fmv : Option ℚ) (rare unc : ℚ)
    (fuel : ℕ) (origin : String) (target maxAtt : ℕ) :
    ℕ → List PResult → JsNum → ℕ → ℕ → Res (List PResult × JsNum × ℕ × ℕ)
  | 0, _, _, _, _ => .error .fuelOut
  | ofuel + 1, results, accumulated, attempts, k =>
      match tryRollIdx tables mats rand umaxCLI fmv rare unc fuel origin
          accumulated maxAtt k with
      | .error e => .error e
      | .ok (none, k', _) => .ok (results, accumulated, attempts, k')
      | .ok (some res, k', _) =>
          let isEmpty : Bool :=
            match res with
            | .set [] _ _ => true
            | .single r => r.item.isNone
            | .set (_ :: _) _ _ => false
          if isEmpty then .ok (results, accumulated, attempts, k')
          else
            let st : List PResult × JsNum × ℕ :=
              match res with
              | .single r => (results ++ [r], accumulated.add r.totalValue, attempts + 1)
              | .set rs _ _ => addSetIdx rs (results, accumulated, attempts)
            if ¬ numTruthy umaxCLI ∨ target ≤ st.2.2 ∨ maxAtt ≤ st.2.2 then
              .ok (st.1, st.2.1, st.2.2, k')
            else
              ctrlSlotIdx tables mats rand umaxCLI fmv rare unc fuel origin target
                maxAtt ofuel st.1 st.2.1 st.2.2 k'

/-- Accumulated value of a finished slot run. -/
def slotAcc : Res (List PResult × JsNum × ℕ × ℕ) → Option JsNum
  | .ok (_, acc, _, _) => some acc
  | .error _ => none

/-- Number of emitted results of a finished slot run. -/
def slotCount : Res (List PResult × JsNum × ℕ × ℕ) → Option ℕ
  | .ok (res, _, _, _) => some res.length
  | .error _ => none

/-! ## The V2 engine (`src/unnamed/part_002`)

The V2 script resolves nested references by mutual recursion between
`rollTable` and `processSelectedItem` (the `while` loop body runs at most
once and `break`s after adopting the nested result).  Three faithful
consequences of the source worth noting:
* a returned nested *set* is handed up as-is, so a set's members can
  themselves be set results, whose missing `totalValue` reads as
  `undefined` and poisons sums (`NaN`);
* a nested *exceeded* result carries `item: null`, and the adopting level
  then evaluates `selectedItem.value`, throwing a `TypeError`;
* after adopting a nested single result, whose `totalValue` already
  includes the leaf value, the adopting level runs the leaf-value addition
  again on the adopted item. -/

/-- The global configuration object of the V2 script (its
`actualSetMaxValue` field is written but never read, and is omitted). -/
structure Cfg where
  userMaxValue : Option ℚ := none
  filterMaxValue : Option ℚ := none
  rareChance : ℚ := 10
  uncommonChance : ℚ := 20
deriving Repr

/-- A `rollTable` outcome of the V2 script; a set's members are whole
outcomes. -/
inductive V2Roll where
  | single : PResult → V2Roll
  | set : List V2Roll → Bool → Option ℚ → V2Roll
deriving Repr

namespace V2Roll

/-- `setItem.totalValue`: reading it off a nested set result gives
`undefined`, which poisons sums as `NaN`. -/
def totalOf : V2Roll → JsNum
  | .single r => r.totalValue
  | .set _ _ _ => .nan

/-- `setItem.exceeded` (a non-exceeded set result has no such field —
falsy). -/
def exceededOf : V2Roll → Bool
  | .single r => r.exceeded
  | .set _ e _ => e

/-- `setItem.maxValue`. -/
def maxValueOf : V2Roll → Option ℚ
  | .single r => r.maxValue
  | .set _ _ mv => mv

end V2Roll

/-- The effective set limit of the V2 script: the wrapper's `max_value`,
replaced by the caller's budget when that budget is truthy and strictly
larger (`config.userMaxValue && config.userMaxValue > selectedItem.max_value`). -/
def effectiveLimit (cfg : Cfg) (mv : Option ℚ) : Option ℚ :=
  if numTruthy cfg.userMaxValue ∧ mv.isSome ∧ mv.getD 0 < cfg.userMaxValue.getD 0 then
    cfg.userMaxValue
  else mv

/-- The leaf-value and material step shared by the V2 walk: add the item's
value (via the `display_value` currency conversion when present), then run
the `special_materials` block with the V2 weight default. -/
def leafPartV2 (mats : List Material) (rand : RStream) (selectedItem : Entry)
    (breadcrumb modifiers : List String) (totalValue : JsNum)
    (maxValue : Option ℚ) (finalItemTable : Option String)
    (pending : List String) (k : ℕ) : Res (PResult × ℕ) :=
  let f := selectedItem.fields
  let step : JsNum × ℕ := leafStepIdx rand f totalValue k
  match applyMaterials (matSelect matWeightB) mats finalItemTable rand
      pending modifiers step.1 step.2 with
  | .error e => .error e
  | .ok (tv, mods, k₂) =>
      .ok (⟨some selectedItem, breadcrumb, mods, tv, maxValue, false, finalItemTable⟩, k₂)

/-- The duplicate-skipping breadcrumb push of V2 `rollTable` (lines 247-250):
push `tableName` unless it already sits at the end of the breadcrumb. -/
def pushCrumbV2 (breadcrumb : List String) (tableName : String) : List String :=
  match breadcrumb.getLast? with
  | some lastT => if lastT = tableName then breadcrumb else breadcrumb ++ [tableName]
  | none => breadcrumb ++ [tableName]

mutual

/-- `rollTable` of the V2 script (lines 243-329): duplicate-skipping
breadcrumb push, global `--max` tier filter, rarity band, V2 weighted
selection, then set expansion with the effective-limit check or a single
`processSelectedItem`. -/
def rollTableV2 (cfg : Cfg) (tables : String → List Entry) (mats : List Material)
    (rand : RStream) (fuel : ℕ) (tableName : String)
    (breadcrumb modifiers : List String) (totalValue : JsNum)
    (maxValue : Option ℚ) (finalItemTable : Option String) (k : ℕ) :
    Res (V2Roll × ℕ) :=
  match fuel with
  | 0 => .error .fuelOut
  | fuel' + 1 =>
      let breadcrumb' := pushCrumbV2 breadcrumb tableName
      let tableData := filterByMax (tables tableName) cfg.filterMaxValue
      let allowed := allowedRarities cfg.rareChance cfg.uncommonChance (qmul (rand k) 100)
      match weightedRandomB tableData allowed (rand (k + 1)) with
      | none => .error .thrown
      | some selectedItem =>
          match (match selectedItem with
                 | .arr l => some l
                 | .obj _ (some l) => some l
                 | .obj _ none => none : Option (List Entry)) with
          | some l =>
              match processSetItemsV2 cfg tables mats rand fuel' breadcrumb' modifiers
                  totalValue maxValue finalItemTable l [] (.num 0) (k + 2) with
              | .error e => .error e
              | .ok (setResults, setTotalValue, k') =>
                  let mvOpt := selectedItem.fields.max_value
                  if numTruthy mvOpt ∧
                      JsNum.gtb setTotalValue (.num ((effectiveLimit cfg mvOpt).getD 0)) then
                    .ok (.set [] true mvOpt, k')
                  else
                    .ok (.set setResults false none, k')
          | none =>
              processSelectedItemV2 cfg tables mats rand fuel' selectedItem breadcrumb'
                modifiers totalValue maxValue finalItemTable (k + 2)
termination_by (fuel, 0)

/-- The member loop of the V2 set expansion (each member processed against
copies of the accumulator lists; results and the set total accumulate left
to right, a nested set contributing `NaN`). -/
def processSetItemsV2 (cfg : Cfg) (tables : String → List Entry) (mats : List Material)
    (rand : RStream) (fuel : ℕ) (breadcrumb modifiers : List String)
    (totalValue : JsNum) (maxValue : Option ℚ) (finalItemTable : Option String)
    (l : List Entry) (acc : List V2Roll) (accSum : JsNum) (k : ℕ) :
    Res (List V2Roll × JsNum × ℕ) :=
  match l with
  | [] => .ok (acc, accSum, k)
  | it :: rest =>
      match processSelectedItemV2 cfg tables mats rand fuel it breadcrumb modifiers
          totalValue maxValue finalItemTable k with
      | .error e => .error e
      | .ok (r, k') =>
          processSetItemsV2 cfg tables mats rand fuel breadcrumb modifiers totalValue
            maxValue finalItemTable rest (acc ++ [r]) (accSum.add r.totalOf) k'
termination_by (fuel, 1 + l.length)

/-- `processSelectedItem` of the V2 script (lines 112-241): the budget
guards against the *global* `config.userMaxValue`, one table hop through
`rollTable` (returning a nested set as-is, throwing on a nested `null`
item), then the leaf/material step — run on the adopted item as well. -/
def processSelectedItemV2 (cfg : Cfg) (tables : String → List Entry)
    (mats : List Material) (rand : RStream) (fuel : ℕ) (selectedItem : Entry)
    (breadcrumb modifiers : List String) (totalValue : JsNum)
    (maxValue : Option ℚ) (finalItemTable : Option String) (k : ℕ) :
    Res (V2Roll × ℕ) :=
  if numTruthy cfg.userMaxValue ∧ numTruthy selectedItem.fields.max_value ∧
      (cfg.userMaxValue.getD 0) < (selectedItem.fields.max_value.getD 0) then
    .ok (.single ⟨none, breadcrumb, modifiers, totalValue, maxValue, true, finalItemTable⟩, k)
  else if cfg.userMaxValue.isSome ∧ numTruthy selectedItem.fields.min_value ∧
      (cfg.userMaxValue.getD 0) < (selectedItem.fields.min_value.getD 0) then
    .ok (.single ⟨none, breadcrumb, modifiers, totalValue, maxValue, true, finalItemTable⟩, k)
  else
    if selectedItem.fields.etype = some "table" then
      match fuel with
      | 0 => .error .fuelOut
      | fuel' + 1 =>
          let f := selectedItem.fields
          let name := f.name.getD "undefined"
          let breadcrumb₁ := breadcrumb ++ [name]
          let tags := if modTruthy f.modifier then
              collectTags (f.modifier.getD (.many [])).tags
            else ([], [])
          let modifiers₁ := modifiers ++ tags.1
          let pending := tags.2
          let step : JsNum × ℕ :=
            if modTruthy f.modifier ∧ valTruthy f.value then
              let dv := rollDice (f.value.getD (.num 0)) rand k
              (totalValue.add dv.1, dv.2)
            else (totalValue, k)
          let maxValue₁ := if numTruthy f.max_value then f.max_value else maxValue
          match rollTableV2 cfg tables mats rand fuel' name breadcrumb₁ modifiers₁
              step.1 maxValue₁ (some name) step.2 with
          | .error e => .error e
          | .ok (.set rs e mv, k') => .ok (.set rs e mv, k')
          | .ok (.single nr, k') =>
              match nr.item with
              | none => .error .thrown
              | some adopted =>
                  match leafPartV2 mats rand adopted nr.breadcrumb nr.modifiers
                      nr.totalValue nr.maxValue nr.finalItemTable pending k' with
                  | .error e => .error e
                  | .ok (r, k'') => .ok (.single r, k'')
    else
      match leafPartV2 mats rand selectedItem breadcrumb modifiers totalValue
          maxValue finalItemTable [] k with
      | .error e => .error e
      | .ok (r, k'') => .ok (.single r, k'')
termination_by (fuel, 0)

end

/-! ## The budget controller of the V2 script (`part_002` lines 331-523)

The slot loop is parameterised by the resolver call `roll` — the script
instantiates it with `rollTable(originTable, [], [], 0, null, null)` at the
current stream index — so that the acceptance logic can be reasoned about
for arbitrary resolver outcomes. -/

/-- `MAX_REROLL_ATTEMPTS` of the V2 script. -/
def MAX_REROLL_V2 : ℕ := 1000

namespace JsNum

/-- Is this a genuine rational (not `NaN`/`±Infinity`)? -/
def isNum : JsNum → Bool
  | num _ => true
  | _ => false

/-- The rational value (junk `0` off the `num` constructor). -/
def toQ : JsNum → ℚ
  | num q => q
  | _ => 0

end JsNum

/-- The V2 controller's scan over a candidate set's members: stop at the
first violating member, accumulating the set total up to the stop. -/
def scanSetV2 : List V2Roll → JsNum → Bool × JsNum
  | [], sum => (false, sum)
  | r :: rest, sum =>
      if r.exceededOf then (true, sum)
      else if numTruthy r.maxValueOf ∧ JsNum.gtb r.totalOf (.num (r.maxValueOf.getD 0)) then
        (true, sum)
      else scanSetV2 rest (sum.add r.totalOf)

/-- The V2 controller's reroll test (the budget test fires whenever
`remainingBudget !== null`, a remaining budget of `0` included). -/
def shouldRerollV2 (remaining : Option JsNum) (res : V2Roll) : Bool :=
  match res with
  | .set rs e _ =>
      if e then true
      else
        let scan := scanSetV2 rs (.num 0)
        scan.1 || (remaining.isSome && JsNum.gtb scan.2 (remaining.getD .nan))
  | .single r =>
      r.exceeded
        || (numTruthy r.maxValue && JsNum.gtb r.totalValue (.num (r.maxValue.getD 0)))
        || (remaining.isSome && JsNum.gtb r.totalValue (remaining.getD .nan))

/-- `config.userMaxValue ? config.userMaxValue - accumulatedValue : null`. -/
def remainingV2 (umax : Option ℚ) (accumulated : JsNum) : Option JsNum :=
  if numTruthy umax then some ((JsNum.num (umax.getD 0)).sub accumulated) else none

/-- The inner reroll loop of the V2 controller: call the resolver, reroll on
a rejected outcome, give up (`none`) at the attempt ceiling; also counts the
resolver calls made. -/
def tryRollV2 (roll : ℕ → Res (V2Roll × ℕ)) (remaining : Option JsNum) :
    ℕ → ℕ → Res (Option V2Roll × ℕ × ℕ)
  | 0, k => .ok (none, k, 0)
  | left + 1, k =>
      match roll k with
      | .error e => .error e
      | .ok (res, k') =>
          if shouldRerollV2 remaining res then
            if left = 0 then .ok (none, k', 1)
            else
              match tryRollV2 roll remaining left k' with
              | .error e => .error e
              | .ok (o, k'', used) => .ok (o, k'', used + 1)
          else .ok (some res, k', 1)

/-- Append an accepted set's members one by one, adding each `totalValue`
and counting attempts. -/
def addSetV2 : List V2Roll → List V2Roll × JsNum × ℕ → List V2Roll × JsNum × ℕ
  | [], st => st
  | r :: rest, (results, accumulated, attempts) =>
      addSetV2 rest (results ++ [r], accumulated.add r.totalOf, attempts + 1)

/-- One result-set slot of the V2 controller: accept rolls until
`!config.userMaxValue`, the target count, or the attempt ceiling stops the
accumulation, or a reroll loop gives up (the script then prints its
`could not generate a valid result` diagnostic exactly when `results` is
empty). -/
def ctrlSlotV2 (roll : ℕ → Res (V2Roll × ℕ)) (umax : Option ℚ)
    (target maxAtt : ℕ) :
    ℕ → List V2Roll → JsNum → ℕ → ℕ → Res (List V2Roll × JsNum × ℕ × ℕ)
  | 0, _, _, _, _ => .error .fuelOut
  | ofuel + 1, results, accumulated, attempts, k =>
      match tryRollV2 roll (remainingV2 umax accumulated) maxAtt k with
      | .error e => .error e
      | .ok (none, k', _) => .ok (results, accumulated, attempts, k')
      | .ok (some res, k', _) =>
          let isEmpty : Bool :=
            match res with
            | .set [] _ _ => true
            | .single r => r.item.isNone
            | .set (_ :: _) _ _ => false
          if isEmpty then .ok (results, accumulated, attempts, k')
          else
            let st : List V2Roll × JsNum × ℕ :=
              match res with
              | .single r => (results ++ [.single r], accumulated.add r.totalValue, attempts + 1)
              | .set rs _ _ => addSetV2 rs (results, accumulated, attempts)
            if ¬ numTruthy umax ∨ target ≤ st.2.2 ∨ maxAtt ≤ st.2.2 then
              .ok (st.1, st.2.1, st.2.2, k')
            else
              ctrlSlotV2 roll umax target maxAtt ofuel st.1 st.2.1 st.2.2 k'

/-- Outcomes all of whose item totals are genuine rationals (no `NaN` or
infinities — e.g. no malformed multiplier strings and no nested-set
members). -/
def NumOutcome : V2Roll → Prop
  | .single r => r.totalValue.isNum = true
  | .set rs _ _ => ∀ x ∈ rs, (V2Roll.totalOf x).isNum = true

/-- The aggregate value of an outcome: the single total, or the sum of the
members' totals. -/
def aggTotalV2 : V2Roll → ℚ
  | .single r => r.totalValue.toQ
  | .set rs _ _ => (rs.map (fun x => x.totalOf.toQ)).sum

/-! ## Lemmas on the V2 controller (claims C1, C2) -/

/-- A genuine rational `JsNum` is `num` of its value. -/
theorem isNum_toQ (x : JsNum) (h : x.isNum = true) : x = .num x.toQ := by
  cases x <;> simp_all [JsNum.isNum, JsNum.toQ]

/-- A non-breaking scan accumulates exactly the members' total. -/
theorem scanSetV2_sum (rs : List V2Roll)
    (h : ∀ x ∈ rs, (V2Roll.totalOf x).isNum = true) :
    ∀ c : ℚ, (scanSetV2 rs (.num c)).1 = false →
      (scanSetV2 rs (.num c)).2 = .num (c + (rs.map (fun x => x.totalOf.toQ)).sum) := by
  induction rs with
  | nil =>
      intro c _
      simp [scanSetV2]
  | cons r rest ih =>
      intro c hfalse
      by_cases he : r.exceededOf
      · simp [scanSetV2, he] at hfalse
      · by_cases hmv : numTruthy r.maxValueOf ∧
            JsNum.gtb r.totalOf (.num (r.maxValueOf.getD 0))
        · simp [scanSetV2, he, hmv] at hfalse
        · have hr : r.totalOf = .num r.totalOf.toQ :=
            isNum_toQ _ (h r (List.mem_cons_self _ _))
          have hstep : scanSetV2 (r :: rest) (.num c)
              = scanSetV2 rest (.num (c + r.totalOf.toQ)) := by
            rw [scanSetV2, if_neg he, if_neg hmv, hr, jsAdd_num_num]
            simp only [JsNum.toQ]
          rw [hstep] at hfalse ⊢
          rw [ih (fun x hx => h x (List.mem_cons_of_mem r hx)) _ hfalse]
          simp only [List.map_cons, List.sum_cons]
          ring_nf
  
/-- `addSetV2` appends the members, adds the members' totals, and counts
them as attempts. -/
theorem addSetV2_spec (rs : List V2Roll)
    (h : ∀ x ∈ rs, (V2Roll.totalOf x).isNum = true) :
    ∀ (results : List V2Roll) (a : ℚ) (att : ℕ),
      addSetV2 rs (results, .num a, att)
        = (results ++ rs, .num (a + (rs.map (fun x => x.totalOf.toQ)).sum),
           att + rs.length) := by
  induction rs with
  | nil =>
      intro results a att
      simp [addSetV2]
  | cons r rest ih =>
      intro results a att
      have hr : r.totalOf = .num r.totalOf.toQ :=
        isNum_toQ _ (h r (List.mem_cons_self _ _))
      rw [addSetV2, hr, jsAdd_num_num,
        ih (fun x hx => h x (List.mem_cons_of_mem r hx))]
      simp only [List.map_cons, List.sum_cons, List.append_assoc,
        List.singleton_append, List.length_cons, Prod.mk.injEq]
      refine ⟨trivial, ?_, ?_⟩
      · congr 1
        ring
      · omega

/-- An accepted roll of the inner loop was produced by a resolver call and
passed the reroll test. -/
theorem tryRollV2_accept (roll : ℕ → Res (V2Roll × ℕ)) (remaining : Option JsNum) :
    ∀ (left k : ℕ) (res : V2Roll) (k' used : ℕ),
      tryRollV2 roll remaining left k = .ok (some res, k', used) →
      shouldRerollV2 remaining res = false ∧ ∃ k0 k1, roll k0 = .ok (res, k1) := by
  intro left
  induction left with
  | zero =>
      intro k res k' used h
      exact absurd h (by simp [tryRollV2])
  | succ left ih =>
      intro k res k' used h
      rw [tryRollV2] at h
      rcases hr : roll k with e | ⟨r, k1⟩
      · rw [hr] at h
        exact absurd h (by simp)
      · rw [hr] at h
        simp only at h
        by_cases hsr : shouldRerollV2 remaining r = true
        · rw [if_pos hsr] at h
          by_cases hleft : left = 0
          · rw [if_pos hleft] at h
            exact absurd h (by simp)
          · rw [if_neg hleft] at h
            rcases ht : tryRollV2 roll remaining left k1 with e' | ⟨o, k'', used'⟩
            · rw [ht] at h
              exact absurd h (by simp)
            · rw [ht] at h
              simp only [Except.ok.injEq, Prod.mk.injEq] at h
              obtain ⟨ho, _, _⟩ := h
              subst ho
              exact ih k1 res k'' used' ht
        · rw [if_neg hsr] at h
          simp only [Except.ok.injEq, Prod.mk.injEq] at h
          obtain ⟨ho, _, _⟩ := h
          obtain rfl : r = res := Option.some.inj ho
          exact ⟨by simpa using hsr, k, k1, hr⟩

/-- The inner loop makes at most `left` resolver calls. -/
theorem tryRollV2_used (roll : ℕ → Res (V2Roll × ℕ)) (remaining : Option JsNum) :
    ∀ (left k : ℕ) (o : Option V2Roll) (k' used : ℕ),
      tryRollV2 roll remaining left k = .ok (o, k', used) → used ≤ left := by
  intro left
  induction left with
  | zero =>
      intro k o k' used h
      simp [tryRollV2] at h
      omega
  | succ left ih =>
      intro k o k' used h
      rw [tryRollV2] at h
      rcases hr : roll k with e | ⟨r, k1⟩
      · rw [hr] at h
        exact absurd h (by simp)
      · rw [hr] at h
        simp only at h
        by_cases hsr : shouldRerollV2 remaining r = true
        · rw [if_pos hsr] at h
          by_cases hleft : left = 0
          · rw [if_pos hleft] at h
            simp only [Except.ok.injEq, Prod.mk.injEq] at h
            omega
          · rw [if_neg hleft] at h
            rcases ht : tryRollV2 roll remaining left k1 with e' | ⟨o', k'', used'⟩
            · rw [ht] at h
              exact absurd h (by simp)
            · rw [ht] at h
              simp only [Except.ok.injEq, Prod.mk.injEq] at h
              have := ih k1 o' k'' used' ht
              omega
        · rw [if_neg hsr] at h
          simp only [Except.ok.injEq, Prod.mk.injEq] at h
          omega

/-- When every resolver outcome is rejected, the inner loop gives up with
`none`. -/
theorem tryRollV2_all_rejected (roll : ℕ → Res (V2Roll × ℕ)) (remaining : Option JsNum)
    (h : ∀ k, ∃ r k', roll k = .ok (r, k') ∧ shouldRerollV2 remaining r = true) :
    ∀ (left k : ℕ), ∃ k' used, tryRollV2 roll remaining left k = .ok (none, k', used) := by
  intro left
  induction left with
  | zero =>
      intro k
      exact ⟨k, 0, rfl⟩
  | succ left ih =>
      intro k
      obtain ⟨r, k1, hr, hsr⟩ := h k
      by_cases hleft : left = 0
      · subst hleft
        refine ⟨k1, 1, ?_⟩
        rw [tryRollV2, hr]
        simp [hsr]
      · obtain ⟨k', used, ht⟩ := ih k1
        refine ⟨k', used + 1, ?_⟩
        rw [tryRollV2, hr]
        simp [hsr, hleft, ht]

/-- Acceptance characterisation of the V2 controller: with a budget `M` and
a rational-valued outcome, a roll passes the reroll test only if its
aggregate value fits the remaining budget `M - a`. -/
theorem shouldRerollV2_accept_le (M a : ℚ) (hM : M ≠ 0) (r : V2Roll)
    (hr : NumOutcome r)
    (hacc : shouldRerollV2 (remainingV2 (some M) (.num a)) r = false) :
    aggTotalV2 r ≤ M - a := by
  have hrem : remainingV2 (some M) (.num a) = some (.num (M - a)) := by
    simp only [remainingV2, numTruthy]
    rw [if_pos (by simpa using hM)]
    rw [show (JsNum.num ((some M : Option ℚ).getD 0)).sub (.num a) = JsNum.num (M - a) by
      simpa using jsSub_num_num M a]
  rw [hrem] at hacc
  cases r with
  | single pr =>
      have ht : pr.totalValue = .num pr.totalValue.toQ := isNum_toQ _ hr
      simp only [shouldRerollV2, Bool.or_eq_false_iff, Bool.and_eq_false_iff] at hacc
      have h3 := hacc.2
      rcases h3 with h3 | h3
      · simp at h3
      · rw [ht] at h3
        simp only [Option.getD_some, JsNum.gtb, JsNum.ltb] at h3
        simp only [aggTotalV2]
        exact not_lt.1 (by simpa using h3)
  | set rs e mv =>
      simp only [shouldRerollV2] at hacc
      by_cases he : e
      · simp [he] at hacc
      · rw [if_neg he] at hacc
        simp only [Bool.or_eq_false_iff, Bool.and_eq_false_iff] at hacc
        obtain ⟨h1, h2⟩ := hacc
        have hsum := scanSetV2_sum rs hr 0 h1
        rcases h2 with h2 | h2
        · simp at h2
        · rw [hsum] at h2
          simp only [Option.getD_some, JsNum.gtb, JsNum.ltb] at h2
          simp only [aggTotalV2]
          have := not_lt.1 (by simpa using h2)
          linarith

/-- The slot invariant of the V2 controller: a run that starts within the
budget ends with a rational accumulated value within the budget. -/
theorem ctrlSlotV2_le (roll : ℕ → Res (V2Roll × ℕ)) (M : ℚ) (hM : 0 < M)
    (hnum : ∀ k r k', roll k = .ok (r, k') → NumOutcome r) (target maxAtt : ℕ) :
    ∀ (ofuel : ℕ) (results : List V2Roll) (a : ℚ) (att k : ℕ), a ≤ M →
      ∀ res acc att' k',
        ctrlSlotV2 roll (some M) target maxAtt ofuel results (.num a) att k
          = .ok (res, acc, att', k') →
        ∃ a' : ℚ, acc = .num a' ∧ a' ≤ M := by
  intro ofuel
  induction ofuel with
  | zero =>
      intro _ _ _ _ ha _ _ _ _ h
      exact absurd h (by simp [ctrlSlotV2])
  | succ ofuel ih =>
      intro results a att k ha res acc att' k' h
      rw [ctrlSlotV2] at h
      rcases ht : tryRollV2 roll (remainingV2 (some M) (.num a)) maxAtt k
        with e | ⟨o, k1, used⟩
      · rw [ht] at h
        exact absurd h (by simp)
      · rw [ht] at h
        match o with
        | none =>
            simp only [Except.ok.injEq, Prod.mk.injEq] at h
            exact ⟨a, h.2.1.symm, ha⟩
        | some r =>
            obtain ⟨hsr, k0, k0', hroll⟩ := tryRollV2_accept roll _ maxAtt k r k1 used ht
            have hnr : NumOutcome r := hnum k0 r k0' hroll
            have hfit : aggTotalV2 r ≤ M - a :=
              shouldRerollV2_accept_le M a hM.ne' r hnr hsr
            cases r with
            | single pr =>
                have htv : pr.totalValue = .num pr.totalValue.toQ := isNum_toQ _ hnr
                simp only at h
                by_cases hit : pr.item.isNone
                · rw [if_pos (by simpa using hit)] at h
                  simp only [Except.ok.injEq, Prod.mk.injEq] at h
                  exact ⟨a, h.2.1.symm, ha⟩
                · rw [if_neg (by simpa using hit)] at h
                  rw [htv, jsAdd_num_num] at h
                  have hle : a + pr.totalValue.toQ ≤ M := by
                    simp only [aggTotalV2] at hfit
                    linarith
                  by_cases hstop : ¬ numTruthy (some M) = true ∨ target ≤ att + 1 ∨
                      maxAtt ≤ att + 1
                  · rw [if_pos hstop] at h
                    simp only [Except.ok.injEq, Prod.mk.injEq] at h
                    exact ⟨a + pr.totalValue.toQ, h.2.1.symm, hle⟩
                  · rw [if_neg hstop] at h
                    exact ih _ _ _ _ hle _ _ _ _ h
            | set rs e mv =>
                simp only at h
                match rs, h with
                | [], h =>
                    simp only [Except.ok.injEq, Prod.mk.injEq, if_true] at h
                    exact ⟨a, h.2.1.symm, ha⟩
                | r0 :: rest, h =>
                    simp only at h
                    rw [if_neg (by simp)] at h
                    rw [addSetV2_spec (r0 :: rest) hnr results a att] at h
                    have hle : a + ((r0 :: rest).map (fun x => x.totalOf.toQ)).sum ≤ M := by
                      simp only [aggTotalV2] at hfit
                      linarith
                    by_cases hstop : ¬ numTruthy (some M) = true ∨
                        target ≤ att + (r0 :: rest).length ∨
                        maxAtt ≤ att + (r0 :: rest).length
                    · rw [if_pos hstop] at h
                      simp only [Except.ok.injEq, Prod.mk.injEq] at h
                      exact ⟨_, h.2.1.symm, hle⟩
                    · rw [if_neg hstop] at h
                      exact ih _ _ _ _ hle _ _ _ _ h

/-! ## Claims C1, C2: the budget controller -/

/-- The one-leaf table of the C1 counterexample: a single `common` item of
value `100`, weight `1`. -/
def c1Tables : String → List Entry :=
  fun _ => [Entry.obj { name := some "g", value := some (.num 100), weight := some 1 } none]

/-- **C1** (counterexample to the claim as stated).  The Idx controller
(`src/index.js`), budget `100` over a table whose sole leaf is worth `100`
and a requested count of `2`: the first roll is accepted and exhausts the
budget; the remaining budget is then exactly `0`, which is *falsy*, so the
budget test `remainingBudget && totalValue > remainingBudget` is skipped and
the second roll of value `100` is accepted as well — the emitted result-set
totals `200`, exceeding `userMaxValue = 100`. -/
theorem c1_counterexample :
    slotAcc (ctrlSlotIdx c1Tables [] (fun _ => 0) (some 100) none 10 20 3 "armor" 2 100
      5 [] (.num 0) 0 0) = some (.num 200) ∧
    slotCount (ctrlSlotIdx c1Tables [] (fun _ => 0) (some 100) none 10 20 3 "armor" 2 100
      5 [] (.num 0) 0 0) = some 2 ∧
    ¬ ((200 : ℚ) ≤ (100 : ℚ)) :=
  ⟨by decide, by decide, by norm_num⟩

/-- **C1** (amended, the V2 flow of `part_002`).  In the newest controller
the budget test fires whenever `remainingBudget !== null`: for a positive
budget `M`, over every resolver behaviour whose outcomes carry *numeric*
totals, a roll is accepted only when its aggregate value is at most the
remaining budget `M - accumulated`, and consequently the accumulated value
of every finished slot run stays within `M`.  The numeric-outcome condition
is essential: a `NaN` total (a material mapped to the bare string `x` gives
`parseFloat("") = NaN`; a set member that is itself a set contributes
`undefined` to the sum) evades the test, since `NaN > remainingBudget` is
`false`, and such a roll is accepted without fitting the budget. -/
theorem c1_budget_invariant (roll : ℕ → Res (V2Roll × ℕ)) (M : ℚ) (hM : 0 < M)
    (hnum : ∀ k r k', roll k = .ok (r, k') → NumOutcome r)
    (target maxAtt ofuel k0 : ℕ) (res : List V2Roll) (acc : JsNum) (att k' : ℕ)
    (hrun : ctrlSlotV2 roll (some M) target maxAtt ofuel [] (.num 0) 0 k0
      = .ok (res, acc, att, k')) :
    (∃ a' : ℚ, acc = .num a' ∧ a' ≤ M) ∧
    (∀ (a : ℚ) (r : V2Roll), NumOutcome r →
        shouldRerollV2 (remainingV2 (some M) (.num a)) r = false →
        aggTotalV2 r ≤ M - a) :=
  ⟨ctrlSlotV2_le roll M hM hnum target maxAtt ofuel [] 0 0 k0 hM.le res acc att k' hrun,
   fun a r hnr hacc => shouldRerollV2_accept_le M a hM.ne' r hnr hacc⟩

/-- The constant-outcome resolver of the C1 witness: every call returns a
single accepted item of value `40`. -/
def c1Oracle : ℕ → Res (V2Roll × ℕ) :=
  fun k => .ok (.single ⟨some (Entry.obj { name := some "g" } none), ["armor"], [],
    .num 40, none, false, some "armor"⟩, k + 1)

/-- Witness for C1: with budget `100` and target `2`, the oracle run accepts
two items of `40` and finishes at `80 ≤ 100`. -/
theorem c1_budget_invariant_witness :
    (∃ a' : ℚ, (JsNum.num 80 : JsNum) = .num a' ∧ a' ≤ 100) ∧
    (∀ (a : ℚ) (r : V2Roll), NumOutcome r →
        shouldRerollV2 (remainingV2 (some 100) (.num a)) r = false →
        aggTotalV2 r ≤ 100 - a) := by
  have hnum : ∀ k r k', c1Oracle k = .ok (r, k') → NumOutcome r := by
    intro k r k' h
    simp only [c1Oracle, Except.ok.injEq, Prod.mk.injEq] at h
    rw [← h.1]
    exact rfl
  exact c1_budget_invariant c1Oracle 100 (by norm_num) hnum 2 1000 3 0
    [.single ⟨some (Entry.obj { name := some "g" } none), ["armor"], [], .num 40, none,
      false, some "armor"⟩,
     .single ⟨some (Entry.obj { name := some "g" } none), ["armor"], [], .num 40, none,
      false, some "armor"⟩]
    (.num 80) 2 2 rfl

/-- The Idx do-while reroll loop calls the resolver at most its attempt
budget (`rollAttempts` never exceeds the ceiling handed in). -/
theorem tryRollIdx_used (tables : String → List Entry) (mats : List Material)
    (rand : RStream) (umaxCLI : Option ℚ) (fmv : Option ℚ) (rare unc : ℚ)
    (fuel : ℕ) (origin : String) (accumulated : JsNum) :
    ∀ (left k : ℕ) (o : Option IdxRoll) (k₂ used : ℕ),
      tryRollIdx tables mats rand umaxCLI fmv rare unc fuel origin accumulated left k
        = .ok (o, k₂, used) → used ≤ left := by
  intro left
  induction left with
  | zero =>
      intro k o k₂ used h
      rw [tryRollIdx] at h
      simp only [Except.ok.injEq, Prod.mk.injEq] at h
      omega
  | succ n ih =>
      intro k o k₂ used h
      rw [tryRollIdx] at h
      generalize (if numTruthy umaxCLI = true then
        some ((JsNum.num (umaxCLI.getD 0)).sub accumulated) else none) = rem at h
      split at h
      · exact absurd h (by simp)
      · split at h
        · split at h
          · simp only [Except.ok.injEq, Prod.mk.injEq] at h
            omega
          · split at h
            · exact absurd h (by simp)
            · next o2 k3 u2 heq =>
                simp only [Except.ok.injEq, Prod.mk.injEq] at h
                have := ih _ _ _ _ heq
                omega
        · simp only [Except.ok.injEq, Prod.mk.injEq] at h
          omega

/-- **C2** (amended).  Each inner reroll loop calls the resolver at most
its fixed attempt ceiling: in the Idx single-item flow the do-while counter
`rollAttempts` never exceeds the ceiling handed in (`MAX_REROLL_ATTEMPTS`
is `100` there), and likewise in the V2 aggregate-budget flow (ceiling
`1000`); and in the V2 flow, provided every resolver call returns (no thrown
`TypeError`, no divergence) and every outcome is rejected, the slot gives up
after the ceiling, emits no items and terminates normally — `results = []`
is exactly the state in which the script prints its error-channel
diagnostic. -/
theorem c2_attempt_ceiling :
    (∀ (tables : String → List Entry) (mats : List Material) (rand : RStream)
        (umaxCLI fmv : Option ℚ) (rare unc : ℚ) (fuel : ℕ) (origin : String)
        (accumulated : JsNum) (left k : ℕ) (o : Option IdxRoll) (k₂ used : ℕ),
        tryRollIdx tables mats rand umaxCLI fmv rare unc fuel origin accumulated
            left k = .ok (o, k₂, used) → used ≤ left) ∧
    MAX_REROLL_IDX = 100 ∧
    (∀ (roll : ℕ → Res (V2Roll × ℕ)) (remaining : Option JsNum) (left k : ℕ)
        (o : Option V2Roll) (k' used : ℕ),
        tryRollV2 roll remaining left k = .ok (o, k', used) → used ≤ left) ∧
    (∀ (roll : ℕ → Res (V2Roll × ℕ)) (umax : Option ℚ) (target maxAtt ofuel k0 : ℕ),
        (∀ k, ∃ r k', roll k = .ok (r, k') ∧
          shouldRerollV2 (remainingV2 umax (.num 0)) r = true) →
        ∃ k', ctrlSlotV2 roll umax target maxAtt (ofuel + 1) [] (.num 0) 0 k0
          = .ok ([], .num 0, 0, k')) := by
  refine ⟨?_, rfl, ?_, ?_⟩
  · intro tables mats rand umaxCLI fmv rare unc fuel origin accumulated left k o k₂
      used h
    exact tryRollIdx_used tables mats rand umaxCLI fmv rare unc fuel origin
      accumulated left k o k₂ used h
  · intro roll remaining left k o k' used h
    exact tryRollV2_used roll remaining left k o k' used h
  · intro roll umax target maxAtt ofuel k0 h
    obtain ⟨k', used, ht⟩ := tryRollV2_all_rejected roll (remainingV2 umax (.num 0)) h maxAtt k0
    refine ⟨k', ?_⟩
    rw [ctrlSlotV2, ht]

/-- The always-rejected resolver of the C2 witness: every outcome is flagged
`exceeded`. -/
def c2Oracle : ℕ → Res (V2Roll × ℕ) :=
  fun k => .ok (.single ⟨none, [], [], .num 500, none, true, none⟩, k + 1)

/-- The leaf the C2 Idx witness accepts (the sole entry of `c1Tables`). -/
def c2IdxEntry : Entry :=
  Entry.obj { name := some "g", value := some (.num 100), weight := some 1 } none

/-- Witness for C2: an Idx reroll loop that accepts at the first call uses
`1 ≤ 3` attempts; a three-attempt V2 loop over the rejected oracle uses
exactly `3 ≤ 3` calls; and the whole V2 slot over it ends normally with no
items. -/
theorem c2_attempt_ceiling_witness :
    (1 : ℕ) ≤ 3 ∧
    (3 : ℕ) ≤ 3 ∧
    ∃ k', ctrlSlotV2 c2Oracle (some 100) 2 1000 3 [] (.num 0) 0 0
      = .ok ([], .num 0, 0, k') := by
  refine ⟨?_, ?_, ?_⟩
  · exact c2_attempt_ceiling.1 c1Tables [] (fun _ => 0) none none 10 20 3 "armor"
      (.num 0) 3 0
      (some (.single ⟨some c2IdxEntry, ["armor"], [], .num 100, none, false, none⟩))
      2 1 rfl
  · exact c2_attempt_ceiling.2.2.1 c2Oracle none 3 0 none 3 3 rfl
  · exact c2_attempt_ceiling.2.2.2 c2Oracle (some 100) 2 1000 2 0
      (fun k => ⟨_, k + 1, rfl, by decide⟩)

/-- **C2** (counterexample to the claim as stated).  The claim's "for every
configuration and table data … never throws to the caller" fails: with an
*empty* origin table, `weightedRandom` returns `undefined` and `rollTable`
throws a `TypeError` reading `selectedItem.items`, which propagates out of
the controller. -/
theorem c2_counterexample :
    ctrlSlotV2 (fun k => rollTableV2 { userMaxValue := some 100 } (fun _ => []) []
        (fun _ => 0) 5 "armor" [] [] (.num 0) none none k)
      (some 100) 2 1000 3 [] (.num 0) 0 0 = .error .thrown := by
  have h : ∀ k : ℕ, rollTableV2 { userMaxValue := some 100 } (fun _ => []) []
      (fun _ => 0) 5 "armor" [] [] (.num 0) none none k = .error .thrown := by
    intro k
    rw [rollTableV2]
    rfl
  rw [show (fun k => rollTableV2 { userMaxValue := some 100 } (fun _ => []) []
        (fun _ => 0) 5 "armor" [] [] (.num 0) none none k)
      = (fun _ : ℕ => (.error .thrown : Res (V2Roll × ℕ))) from funext h]
  rfl

/-! ## Claim C3: min/max guards along the resolution path -/

/-- The deep leaf of the C3 counterexample: it carries `min_value = 500`,
far above the budget of `100`. -/
def c3Leaf : Entry :=
  Entry.obj
    { name := some "leaf", value := some (.num 50), min_value := some 500, weight := some 1 }
    none

/-- The table of the C3 counterexample, reached through a table reference. -/
def c3Tables : String → List Entry := fun _ => [c3Leaf]

/-- **C3** (counterexample to the claim as stated).  In `src/index.js` the
`min_value`/`max_value` guards of `processSelectedItem` test only the entry
handed to it; entries reached *deeper* along the walk are never re-checked.
Resolving a table reference under budget `100` lands on a leaf whose
`min_value = 500` exceeds the budget, yet resolution completes normally —
item present, `exceeded = false` — instead of short-circuiting. -/
theorem c3_counterexample :
    processSelectedItemIdx c3Tables [] (fun _ => 0) (some (.num 100)) ["common"] 3
      (Entry.obj { etype := some "table", name := some "t2", weight := some 1 } none)
      [] [] (.num 0) none none 0
    = .ok (⟨some c3Leaf, ["t2"], [], .num 50, none, false, some "t2"⟩, 1) ∧
    ¬ ((100 : ℚ) < 50) := ⟨by rfl, by norm_num⟩

/-- **C3** (amended, `part_002`).  Whenever the entry handed to
`processSelectedItem` carries a `max_value` above the caller budget, or a
`min_value` above it, resolution short-circuits immediately: the result is a
normal (non-thrown) outcome flagged `exceeded` with no item, the running
value and stream position unchanged, and no recursion into nested tables.
Since the V2 engine routes every selected entry — the origin selection and
each hop's selection alike — through `processSelectedItem`, the guard fires
at every level of the walk; resolution is short-circuited for the *selected*
entry, not re-checked against arbitrary deeper data. -/
theorem c3_guard_short_circuit (cfg : Cfg) (tables : String → List Entry)
    (mats : List Material) (rand : RStream) (fuel : ℕ) (selectedItem : Entry)
    (breadcrumb modifiers : List String) (totalValue : JsNum)
    (maxValue : Option ℚ) (finalItemTable : Option String) (k : ℕ)
    (h : (numTruthy cfg.userMaxValue ∧ numTruthy selectedItem.fields.max_value ∧
          (cfg.userMaxValue.getD 0) < (selectedItem.fields.max_value.getD 0)) ∨
         (cfg.userMaxValue.isSome ∧ numTruthy selectedItem.fields.min_value ∧
          (cfg.userMaxValue.getD 0) < (selectedItem.fields.min_value.getD 0))) :
    processSelectedItemV2 cfg tables mats rand fuel selectedItem breadcrumb modifiers
      totalValue maxValue finalItemTable k
    = .ok (.single ⟨none, breadcrumb, modifiers, totalValue, maxValue, true,
        finalItemTable⟩, k) := by
  rw [processSelectedItemV2.eq_def]
  by_cases h1 : numTruthy cfg.userMaxValue ∧ numTruthy selectedItem.fields.max_value ∧
      (cfg.userMaxValue.getD 0) < (selectedItem.fields.max_value.getD 0)
  · rw [if_pos h1]
  · rw [if_neg h1, if_pos (h.resolve_left h1)]

/-- Witness for C3: budget `100`, the selected leaf declares
`min_value = 500`; the guard rejects it at once, leaving the total at `0`.  -/
theorem c3_guard_short_circuit_witness :
    processSelectedItemV2 { userMaxValue := some 100 } (fun _ => []) [] (fun _ => 0) 3
      c3Leaf ["common"] [] (.num 0) none none 0
    = .ok (.single ⟨none, ["common"], [], .num 0, none, true, none⟩, 0) :=
  c3_guard_short_circuit { userMaxValue := some 100 } (fun _ => []) [] (fun _ => 0) 3
    c3Leaf ["common"] [] (.num 0) none none 0
    (Or.inr ⟨by decide, by decide, by norm_num [c3Leaf, Entry.fields]⟩)

/-! ## The first `index.js` script (lines 7-196): the raw-value engine

The first script has no dice evaluator: `value` fields are added raw
(`totalValue += selectedItem.value`).  Its `weightedRandom` is the shared
variant A, and its special-materials block is the shared `applyMaterials`
with the no-default material weight read. -/

/-- The raw value the first script adds (`totalValue += value`): numeric
values add as numbers; a string `value` would string-concatenate in JS,
poisoning the later numeric uses — modelled as `NaN`. -/
def rawValV1 : JsVal → JsNum
  | .num q => .num q
  | .str _ => .nan

/-- The `while` walk and leaf handling of the first script's
`processSelectedItem` (`src/index.js` lines 62-146): breadcrumb push,
modifier split, raw value additions, `max_value` adoption, then the
special-materials block on the leaf. -/
def processLoopV1 (tables : String → List Entry) (mats : List Material)
    (rand : RStream) (allowed : List String) (fuel : ℕ) (selectedItem : Entry)
    (breadcrumb modifiers : List String) (totalValue : JsNum)
    (maxValue : Option ℚ) (finalItemTable : Option String)
    (pending : List String) (k : ℕ) : Res (PResult × ℕ) :=
  if selectedItem.fields.etype = some "table" then
    match fuel with
    | 0 => .error .fuelOut
    | fuel' + 1 =>
        let f := selectedItem.fields
        let name := f.name.getD "undefined"
        let breadcrumb' := breadcrumb ++ [name]
        let tags := if modTruthy f.modifier then
            collectTags (f.modifier.getD (.many [])).tags
          else ([], [])
        let modifiers' := modifiers ++ tags.1
        let pending' := pending ++ tags.2
        let totalValue' :=
          if modTruthy f.modifier ∧ valTruthy f.value then
            totalValue.add (rawValV1 (f.value.getD (.num 0)))
          else totalValue
        let maxValue' := if numTruthy f.max_value then f.max_value else maxValue
        match weightedRandomA (tables name) allowed (rand k) with
        | none => .error .thrown
        | some next =>
            processLoopV1 tables mats rand allowed fuel' next breadcrumb' modifiers'
              totalValue' maxValue' (some name) pending' (k + 1)
  else
    let f := selectedItem.fields
    let totalValue' :=
      if valTruthy f.value then totalValue.add (rawValV1 (f.value.getD (.num 0)))
      else totalValue
    match applyMaterials (matSelect matWeightA) mats finalItemTable rand
        pending modifiers totalValue' k with
    | .error e => .error e
    | .ok (tv, mods, k₂) =>
        .ok (⟨some selectedItem, breadcrumb, mods, tv, maxValue, false,
          finalItemTable⟩, k₂)

/-- `processSelectedItem` of the first script (lines 49-147): the min/max
guards against the caller budget, then the walk. -/
def processSelectedItemV1 (tables : String → List Entry) (mats : List Material)
    (rand : RStream) (userMaxValue : Option JsNum) (allowed : List String)
    (fuel : ℕ) (selectedItem : Entry) (breadcrumb modifiers : List String)
    (totalValue : JsNum) (maxValue : Option ℚ) (finalItemTable : Option String)
    (k : ℕ) : Res (PResult × ℕ) :=
  if jsOptTruthy userMaxValue ∧ numTruthy selectedItem.fields.max_value ∧
      JsNum.gtb (.num (selectedItem.fields.max_value.getD 0)) (userMaxValue.getD .nan) then
    .ok (⟨none, breadcrumb, modifiers, totalValue, maxValue, true, finalItemTable⟩, k)
  else if userMaxValue.isSome ∧ numTruthy selectedItem.fields.min_value ∧
      JsNum.gtb (.num (selectedItem.fields.min_value.getD 0)) (userMaxValue.getD .nan) then
    .ok (⟨none, breadcrumb, modifiers, totalValue, maxValue, true, finalItemTable⟩, k)
  else
    processLoopV1 tables mats rand allowed fuel selectedItem breadcrumb modifiers
      totalValue maxValue finalItemTable [] k

/-- A `rollTable` outcome in the first script: a single processed item, or
`{ isSet: true, setResults }` — the bare member list, with *no* flag and
*no* wrapper `max_value` check. -/
inductive V1Roll where
  | single : PResult → V1Roll
  | set : List PResult → V1Roll
deriving Repr

/-- `itemsToProcess` of the first script's `rollTable` (lines 173-179): a
bare array, or the `items` list of a wrapper object. -/
def itemsToProcessV1 : Entry → Option (List Entry)
  | .arr l => some l
  | .obj _ (some l) => some l
  | .obj _ none => none

/-- The member loop of the first script's set expansion (lines 183-190):
each member through `processSelectedItem` against copies of the accumulator
lists; every returned result is pushed. -/
def processSetItemsV1 (tables : String → List Entry) (mats : List Material)
    (rand : RStream) (userMaxValue : Option JsNum) (allowed : List String)
    (fuel : ℕ) (breadcrumb modifiers : List String) (totalValue : JsNum)
    (maxValue : Option ℚ) (finalItemTable : Option String) :
    List Entry → List PResult → ℕ → Res (List PResult × ℕ)
  | [], acc, k => .ok (acc, k)
  | it :: rest, acc, k =>
      match processSelectedItemV1 tables mats rand userMaxValue allowed fuel it
          breadcrumb modifiers totalValue maxValue finalItemTable k with
      | .error e => .error e
      | .ok (r, k') =>
          processSetItemsV1 tables mats rand userMaxValue allowed fuel breadcrumb
            modifiers totalValue maxValue finalItemTable rest (acc ++ [r]) k'

/-- `rollTable` of the first script (lines 148-196): breadcrumb push, rarity
band, weighted selection, then either the set expansion — returned directly
as `{ isSet: true, setResults }`, with no wrapper `max_value` check — or the
single `processSelectedItem`. -/
def rollTableV1 (tables : String → List Entry) (mats : List Material)
    (rand : RStream) (userMaxValue : Option JsNum)
    (rareChance uncommonChance : ℚ) (fuel : ℕ) (tableName : String)
    (breadcrumb modifiers : List String) (totalValue : JsNum)
    (maxValue : Option ℚ) (finalItemTable : Option String) (k : ℕ) :
    Res (V1Roll × ℕ) :=
  let breadcrumb' := breadcrumb ++ [tableName]
  let allowed := allowedRarities rareChance uncommonChance (qmul (rand k) 100)
  match weightedRandomA (tables tableName) allowed (rand (k + 1)) with
  | none => .error .thrown
  | some selectedItem =>
      match itemsToProcessV1 selectedItem with
      | some l =>
          match processSetItemsV1 tables mats rand userMaxValue allowed fuel
              breadcrumb' modifiers totalValue maxValue finalItemTable l [] (k + 2) with
          | .error e => .error e
          | .ok (rs, k2) => .ok (.set rs, k2)
      | none =>
          match processSelectedItemV1 tables mats rand userMaxValue allowed fuel
              selectedItem breadcrumb' modifiers totalValue maxValue finalItemTable
              (k + 2) with
          | .error e => .error e
          | .ok (r, k2) => .ok (.single r, k2)

/-! ## Claim C4: atomic rejection of over-limit sets -/

/-- The member leaf of the C4 counterexample: value `10`. -/
def c4V1Leaf : Entry :=
  Entry.obj { name := some "g", value := some (.num 10), weight := some 1 } none

/-- The set wrapper of the C4 counterexample: `max_value = 5`, two members
worth `10` each. -/
def c4V1Wrapper : Entry :=
  Entry.obj { name := some "s", max_value := some 5, weight := some 1 }
    (some [c4V1Leaf, c4V1Leaf])

/-- The one-wrapper table of the C4 counterexample. -/
def c4V1Tables : String → List Entry := fun _ => [c4V1Wrapper]

/-- **C4** (counterexample to the claim as stated).  The first `index.js`
script's set expansion (lines 181-193, cited by the claim) performs *no*
wrapper `max_value` check: a wrapper declaring `max_value = 5` whose two
members resolve to `10` each — sum `20`, far over the limit — is returned
as a plain un-flagged set of both members rather than an `exceeded` result
with no items. -/
theorem c4_counterexample :
    rollTableV1 c4V1Tables [] (fun _ => 0) none 10 20 3 "hoard" [] [] (.num 0)
      none none 0
    = .ok (.set [⟨some c4V1Leaf, ["hoard"], [], .num 10, none, false, none⟩,
        ⟨some c4V1Leaf, ["hoard"], [], .num 10, none, false, none⟩], 2) ∧
    c4V1Wrapper.fields.max_value = some 5 ∧
    ¬ ((10 : ℚ) + 10 ≤ 5) := ⟨rfl, rfl, by norm_num⟩


/-- **C4** (amended, `part_002`).  The V2 set expansion (lines 311-321): once the
wrapper's members have all been resolved, if the wrapper declares a (truthy)
`max_value` and the members' summed value exceeds the effective limit —
the wrapper's `max_value`, raised to the caller budget when that budget is
larger (`effectiveLimit`) — the resolver returns a result flagged
`exceeded` containing *no* items; otherwise it returns the full member list
un-flagged.  A set is never returned partially. -/
theorem c4_set_limit (cfg : Cfg) (tables : String → List Entry)
    (mats : List Material) (rand : RStream) (fuel : ℕ) (tableName : String)
    (breadcrumb modifiers : List String) (totalValue : JsNum)
    (maxValue : Option ℚ) (finalItemTable : Option String) (k : ℕ)
    (f : EFields) (l : List Entry) (rs : List V2Roll) (sum : JsNum) (k' : ℕ)
    (hsel : weightedRandomB (filterByMax (tables tableName) cfg.filterMaxValue)
        (allowedRarities cfg.rareChance cfg.uncommonChance (qmul (rand k) 100))
        (rand (k + 1)) = some (Entry.obj f (some l)))
    (hrun : processSetItemsV2 cfg tables mats rand fuel
        (pushCrumbV2 breadcrumb tableName) modifiers totalValue maxValue
        finalItemTable l [] (.num 0) (k + 2) = .ok (rs, sum, k')) :
    (numTruthy f.max_value = true ∧
        JsNum.gtb sum (.num ((effectiveLimit cfg f.max_value).getD 0)) = true →
      rollTableV2 cfg tables mats rand (fuel + 1) tableName breadcrumb modifiers
        totalValue maxValue finalItemTable k = .ok (.set [] true f.max_value, k')) ∧
    (¬ (numTruthy f.max_value = true ∧
        JsNum.gtb sum (.num ((effectiveLimit cfg f.max_value).getD 0)) = true) →
      rollTableV2 cfg tables mats rand (fuel + 1) tableName breadcrumb modifiers
        totalValue maxValue finalItemTable k = .ok (.set rs false none, k')) := by
  have hbody : rollTableV2 cfg tables mats rand (fuel + 1) tableName breadcrumb modifiers
      totalValue maxValue finalItemTable k
      = if numTruthy f.max_value = true ∧
            JsNum.gtb sum (.num ((effectiveLimit cfg f.max_value).getD 0)) = true then
          .ok (.set [] true f.max_value, k')
        else .ok (.set rs false none, k') := by
    rw [rollTableV2]
    simp only [hsel, hrun, Entry.fields]
  constructor
  · intro hc
    rw [hbody, if_pos hc]
  · intro hc
    rw [hbody, if_neg hc]

/-- The wrapper entry of the C4 witness: `max_value = -5`, no members. -/
def c4Wrapper : Entry :=
  Entry.obj { name := some "s", max_value := some (-5), weight := some 1 } (some [])

/-- Witness for C4: a wrapper of `max_value = -5` with an empty member list
under no caller budget; the member sum `0` exceeds the effective limit `-5`,
so the set is rejected atomically. -/
theorem c4_set_limit_witness :
    rollTableV2 {} (fun _ => [c4Wrapper]) [] (fun _ => 0) 4 "hoard" [] [] (.num 0)
      none none 0
    = .ok (.set [] true (some (-5)), 2) := by
  have hrun : processSetItemsV2 {} (fun _ => [c4Wrapper]) [] (fun _ => 0) 3
      (pushCrumbV2 [] "hoard") [] (.num 0) none none [] [] (.num 0) 2
      = .ok ([], .num 0, 2) := by
    rw [processSetItemsV2]
  exact (c4_set_limit {} (fun _ => [c4Wrapper]) [] (fun _ => 0) 3
    "hoard" [] [] (.num 0) none none 0
    { name := some "s", max_value := some (-5), weight := some 1 } [] [] (.num 0) 2
    rfl hrun).1 ⟨by decide, by decide⟩

/-! ## Claim C8: the special-materials augmentation -/

/-- The material list of the C8 headline: one material mapping `weapons` to
the multiplier string `2x`. -/
def c8Mats : List Material :=
  [{ name := "adamantine", value := some [("weapons", MatVal.str "2x")], weight := some 1 }]

/-- The material list of the C8 witness: one material mapping `weapons` to
the numeric value `10`. -/
def c8MatsAdd : List Material :=
  [{ name := "silver", value := some [("weapons", MatVal.num 10)], weight := some 1 }]

/-- **C8**.  The special-materials block: (1) a numeric mapped value is
added to the running total at the step where its tag is processed, leaving
the pending multiplier untouched; (2) a mapped value of the form
`<number>x` leaves the running total untouched and *replaces* the pending
multiplier, so with several multiplier tags only the last survives while
every additive effect has already been applied; (3) after the tag loop, the
surviving multiplier is applied to the final running total exactly once —
multiplied in and floored — and only when it differs from `1`; (4) in
particular a base value of `50` with the sole compatible material mapped to
`"2x"` yields `100`. -/
theorem c8_special_materials :
    (∀ (select : List Material → ℚ → Option Material) (mats : List Material)
        (finalItemTable : Option String) (rand : RStream)
        (pending modifiers : List String) (totalValue mult : JsNum) (k : ℕ)
        (mat : Material) (q : ℚ),
        strTruthy finalItemTable = true →
        (mats.filter fun m => m.value.isSome &&
            (mapLookup (m.value.getD []) (finalItemTable.getD "")).isSome).length > 0 →
        select (mats.filter fun m => m.value.isSome &&
            (mapLookup (m.value.getD []) (finalItemTable.getD "")).isSome) (rand k)
          = some mat →
        matMapped (mat.value.getD []) (finalItemTable.getD "") = some (.num q) →
        applyMaterialsLoop select mats finalItemTable rand
            ("special_materials" :: pending) modifiers totalValue mult k
          = applyMaterialsLoop select mats finalItemTable rand pending
              (modifiers ++ [mat.name]) (totalValue.add (.num q)) mult (k + 1)) ∧
    (∀ (select : List Material → ℚ → Option Material) (mats : List Material)
        (finalItemTable : Option String) (rand : RStream)
        (pending modifiers : List String) (totalValue mult : JsNum) (k : ℕ)
        (mat : Material) (s : String),
        strTruthy finalItemTable = true →
        (mats.filter fun m => m.value.isSome &&
            (mapLookup (m.value.getD []) (finalItemTable.getD "")).isSome).length > 0 →
        select (mats.filter fun m => m.value.isSome &&
            (mapLookup (m.value.getD []) (finalItemTable.getD "")).isSome) (rand k)
          = some mat →
        matMapped (mat.value.getD []) (finalItemTable.getD "") = some (.str s) →
        strEndsWithX s = true →
        applyMaterialsLoop select mats finalItemTable rand
            ("special_materials" :: pending) modifiers totalValue mult k
          = applyMaterialsLoop select mats finalItemTable rand pending
              (modifiers ++ [mat.name]) totalValue (parseFloatJs (strDropLast s))
              (k + 1)) ∧
    (∀ (select : List Material → ℚ → Option Material) (mats : List Material)
        (finalItemTable : Option String) (rand : RStream)
        (pending modifiers : List String) (totalValue : JsNum) (k : ℕ)
        (tv : JsNum) (mods : List String) (m : JsNum) (k' : ℕ),
        applyMaterialsLoop select mats finalItemTable rand pending modifiers
            totalValue (.num 1) k = .ok (tv, mods, m, k') →
        applyMaterials select mats finalItemTable rand pending modifiers totalValue k
          = .ok (if m ≠ .num 1 then (tv.mul m).floor else tv, mods, k')) ∧
    applyMaterials (matSelect matWeightB) c8Mats (some "weapons") (fun _ => 0)
        ["special_materials"] [] (.num 50) 0
      = .ok (.num 100, ["adamantine"], 1) := by
  refine ⟨?_, ?_, ?_, ?_⟩
  · intro select mats finalItemTable rand pending modifiers totalValue mult k mat q
      hft hcomp hsel hmap
    rw [applyMaterialsLoop]
    simp only [hft, hcomp, hsel, hmap, and_self, if_true, reduceIte, if_pos trivial]
  · intro select mats finalItemTable rand pending modifiers totalValue mult k mat s
      hft hcomp hsel hmap hx
    rw [applyMaterialsLoop]
    simp only [hft, hcomp, hsel, hmap, hx, and_self, if_true, reduceIte, if_pos trivial]
  · intro select mats finalItemTable rand pending modifiers totalValue k tv mods m k' h
    rw [applyMaterials]
    simp only [h, bind, Except.bind]
    by_cases hm : m = JsNum.num 1
    · simp [hm, pure, Except.pure]
    · simp [hm, pure, Except.pure]
  · rfl

/-- Witness for C8: the additive step at concrete input — the sole
compatible material maps `weapons` to the numeric value `10`, which is
added to the running total of `50` immediately. -/
theorem c8_special_materials_witness :
    applyMaterialsLoop (matSelect matWeightB) c8MatsAdd (some "weapons") (fun _ => 0)
        ["special_materials"] [] (.num 50) (.num 1) 0
      = applyMaterialsLoop (matSelect matWeightB) c8MatsAdd (some "weapons") (fun _ => 0)
          [] ["silver"] ((JsNum.num 50).add (.num 10)) (.num 1) 1 :=
  c8_special_materials.1 (matSelect matWeightB) c8MatsAdd (some "weapons") (fun _ => 0)
    [] [] (.num 50) (.num 1) 0
    { name := "silver", value := some [("weapons", MatVal.num 10)], weight := some 1 }
    10 rfl (by decide) rfl rfl

/-! ## Claim C9: monotonicity of the running value -/

/-- A non-negative integer value, as the embedding's number type. -/
def NNIntVal (v : JsNum) : Prop := ∃ z : ℤ, 0 ≤ z ∧ v = .num ((z : ℚ))

/-- A numeric multiplier of at least `1`. -/
def MultOK (m : JsNum) : Prop := ∃ q : ℚ, m = .num q ∧ 1 ≤ q

/-- Well-behaved material data: numeric mapped values are non-negative
integers and multiplier strings parse to a factor of at least `1`. -/
def MatsGood (mats : List Material) : Prop :=
  ∀ mat ∈ mats,
    (∀ ft q, matMapped (mat.value.getD []) ft = some (.num q) →
      ∃ z : ℤ, 0 ≤ z ∧ q = ((z : ℚ))) ∧
    (∀ ft s, matMapped (mat.value.getD []) ft = some (.str s) →
      strEndsWithX s = true →
      ∃ m : ℚ, parseFloatJs (strDropLast s) = .num m ∧ 1 ≤ m)

/-- Well-behaved entry data under the stream `rand`: the entry's dice value
always rolls to a non-negative integer, and so does its converted
`display_value` roll when one is present. -/
def GoodEntry (rand : RStream) (e : Entry) : Prop :=
  (valTruthy e.fields.value = true →
    ∀ k, NNIntVal (rollDice (e.fields.value.getD (.num 0)) rand k).1) ∧
  (valTruthy e.fields.display_value = true →
    ∀ k, NNIntVal (rolledIdx rand e.fields k).1)

/-- `pickLoop` only ever returns members of its list. -/
theorem pickLoop_mem_some (wf : Entry → JsNum) (random : JsNum) :
    ∀ (l : List Entry) (cw : JsNum) (x : Entry),
      pickLoop wf random l cw = some x → x ∈ l := by
  intro l
  induction l with
  | nil => intro cw x h; exact absurd h (by simp [pickLoop])
  | cons it rest ih =>
      intro cw x h
      simp only [pickLoop] at h
      by_cases hb : random.ltb (cw.add (wf it)) = true
      · rw [if_pos hb] at h
        cases h
        exact List.mem_cons_self _ _
      · rw [if_neg hb] at h
        exact List.mem_cons_of_mem _ (ih _ _ h)

/-- `selectFrom` only ever returns members of its list. -/
theorem selectFrom_mem (wf : Entry → JsNum) (l : List Entry) (r : ℚ) (x : Entry)
    (h : selectFrom wf l r = some x) : x ∈ l := by
  simp only [selectFrom] at h
  exact pickLoop_mem_some _ _ _ _ _ h

/-- The Idx weighted selector only ever returns members of its input. -/
theorem weightedRandomA_mem (items : List Entry) (allowed : List String) (r : ℚ)
    (x : Entry) (h : weightedRandomA items allowed r = some x) : x ∈ items :=
  itemsToUse_sub items allowed x (selectFrom_mem _ _ _ _ h)

/-- `matPickLoop` only ever returns members of its list. -/
theorem matPickLoop_mem_some (wf : Material → JsNum) (random : JsNum) :
    ∀ (l : List Material) (cw : JsNum) (x : Material),
      matPickLoop wf random l cw = some x → x ∈ l := by
  intro l
  induction l with
  | nil => intro cw x h; exact absurd h (by simp [matPickLoop])
  | cons it rest ih =>
      intro cw x h
      simp only [matPickLoop] at h
      by_cases hb : random.ltb (cw.add (wf it)) = true
      · rw [if_pos hb] at h
        cases h
        exact List.mem_cons_self _ _
      · rw [if_neg hb] at h
        exact List.mem_cons_of_mem _ (ih _ _ h)

/-- The material selector only ever returns members of its list. -/
theorem matSelect_mem (wf : Material → JsNum) (l : List Material) (r : ℚ)
    (x : Material) (h : matSelect wf l r = some x) : x ∈ l := by
  simp only [matSelect] at h
  exact matPickLoop_mem_some _ _ _ _ _ h

/-- The special-materials tag loop never decreases a non-negative integer
running total, keeps it a non-negative integer, and keeps the pending
multiplier at least `1`. -/
theorem applyMaterialsLoop_mono (select : List Material → ℚ → Option Material)
    (mats : List Material) (fit : Option String) (rand : RStream)
    (hselmem : ∀ l r m, select l r = some m → m ∈ l)
    (hmats : MatsGood mats) :
    ∀ (pending modifiers : List String) (z : ℤ) (mult : JsNum) (k : ℕ)
      (tv : JsNum) (mods : List String) (mult₂ : JsNum) (k₂ : ℕ),
      0 ≤ z → MultOK mult →
      applyMaterialsLoop select mats fit rand pending modifiers (.num ((z : ℚ)))
          mult k = .ok (tv, mods, mult₂, k₂) →
      (∃ z' : ℤ, z ≤ z' ∧ tv = .num ((z' : ℚ))) ∧ MultOK mult₂ := by
  intro pending
  induction pending with
  | nil =>
      intro modifiers z mult k tv mods mult₂ k₂ hz hm h
      rw [applyMaterialsLoop] at h
      simp only [Except.ok.injEq, Prod.mk.injEq] at h
      obtain ⟨h1, _, h3, _⟩ := h
      exact ⟨⟨z, le_refl z, h1.symm⟩, h3 ▸ hm⟩
  | cons tag rest ih =>
      intro modifiers z mult k tv mods mult₂ k₂ hz hm h
      simp only [applyMaterialsLoop] at h
      by_cases h1 : tag = "special_materials" ∧ strTruthy fit = true
      · rw [if_pos h1] at h
        by_cases h2 : (mats.filter fun m => m.value.isSome &&
            (mapLookup (m.value.getD []) (fit.getD "")).isSome).length > 0
        · rw [if_pos h2] at h
          rcases hsel : select (mats.filter fun m => m.value.isSome &&
              (mapLookup (m.value.getD []) (fit.getD "")).isSome) (rand k) with _ | mat
          · rw [hsel] at h
            exact absurd h (by simp)
          · rw [hsel] at h
            simp only [] at h
            have hmem : mat ∈ mats := (List.mem_filter.1 (hselmem _ _ _ hsel)).1
            rcases hmap : matMapped (mat.value.getD []) (fit.getD "") with _ | v
            · rw [hmap] at h
              simp only [] at h
              exact ih _ _ _ _ _ _ _ _ hz hm h
            · cases v with
              | num q =>
                  rw [hmap] at h
                  simp only [] at h
                  obtain ⟨zq, hzq, rfl⟩ := (hmats mat hmem).1 _ _ hmap
                  rw [jsAdd_num_num] at h
                  have hcast : ((z : ℚ) + ((zq : ℚ))) = (((z + zq : ℤ)) : ℚ) := by
                    push_cast
                    ring
                  rw [hcast] at h
                  obtain ⟨⟨z', hle, htv⟩, hmOK⟩ :=
                    ih _ _ _ _ _ _ _ _ (by omega) hm h
                  exact ⟨⟨z', by omega, htv⟩, hmOK⟩
              | str s =>
                  rw [hmap] at h
                  simp only [] at h
                  by_cases hx : strEndsWithX s = true
                  · rw [if_pos hx] at h
                    obtain ⟨m, hpm, hm1⟩ := (hmats mat hmem).2 _ _ hmap hx
                    rw [hpm] at h
                    exact ih _ _ _ _ _ _ _ _ hz ⟨m, rfl, hm1⟩ h
                  · rw [if_neg hx] at h
                    exact ih _ _ _ _ _ _ _ _ hz hm h
        · rw [if_neg h2] at h
          exact ih _ _ _ _ _ _ _ _ hz hm h
      · rw [if_neg h1] at h
        exact ih _ _ _ _ _ _ _ _ hz hm h

/-- The whole special-materials block never decreases a non-negative integer
running total: the additive steps only add non-negative integers again, and
the final multiplier — at least `1` — is applied to a non-negative integer
total, whose floor therefore stays at or above it. -/
theorem applyMaterials_mono (select : List Material → ℚ → Option Material)
    (mats : List Material) (fit : Option String) (rand : RStream)
    (hselmem : ∀ l r m, select l r = some m → m ∈ l)
    (hmats : MatsGood mats)
    (pending modifiers : List String) (z : ℤ) (k : ℕ)
    (tvF : JsNum) (modsF : List String) (k₂ : ℕ)
    (hz : 0 ≤ z)
    (h : applyMaterials select mats fit rand pending modifiers (.num ((z : ℚ))) k
      = .ok (tvF, modsF, k₂)) :
    ∃ z' : ℤ, z ≤ z' ∧ tvF = .num ((z' : ℚ)) := by
  rw [applyMaterials] at h
  rcases hloop : applyMaterialsLoop select mats fit rand pending modifiers
      (.num ((z : ℚ))) (.num 1) k with _ | res
  · rw [hloop] at h
    exact absurd h (by simp [bind, Except.bind])
  · obtain ⟨tv, mods, mult₂, k₁⟩ := res
    rw [hloop] at h
    simp only [bind, Except.bind] at h
    obtain ⟨⟨z₁, hle, rfl⟩, ⟨m, rfl, hm1⟩⟩ :=
      applyMaterialsLoop_mono select mats fit rand hselmem hmats pending modifiers
        z (.num 1) k tv mods mult₂ k₁ hz ⟨1, rfl, le_refl 1⟩ hloop
    by_cases hne : m = (1 : ℚ)
    · subst hne
      rw [if_neg (by simp)] at h
      simp only [pure, Except.pure, Except.ok.injEq, Prod.mk.injEq] at h
      exact ⟨z₁, hle, h.1.symm⟩
    · rw [if_pos (by simp [hne])] at h
      rw [jsMul_num_num] at h
      simp only [JsNum.floor, pure, Except.pure, Except.ok.injEq, Prod.mk.injEq] at h
      refine ⟨Rat.floor (((z₁ : ℚ)) * m), ?_, h.1.symm⟩
      rw [ratFloor_eq]
      have hz1 : (0 : ℚ) ≤ ((z₁ : ℚ)) := by exact_mod_cast hz.trans hle
      have hmul : ((z₁ : ℚ)) ≤ ((z₁ : ℚ)) * m := le_mul_of_one_le_right hz1 hm1
      exact hle.trans (Int.le_floor.2 hmul)

/-- The Idx leaf value step never decreases a non-negative integer running
total when the entry's rolls are non-negative integers. -/
theorem leafStepIdx_mono (rand : RStream) (f : EFields) (z : ℤ) (k : ℕ)
    (hz : 0 ≤ z)
    (hval : valTruthy f.value = true →
      ∀ k, NNIntVal (rollDice (f.value.getD (.num 0)) rand k).1)
    (hdisp : valTruthy f.display_value = true →
      ∀ k, NNIntVal (rolledIdx rand f k).1) :
    ∃ z₁ : ℤ, z ≤ z₁ ∧ (leafStepIdx rand f (.num ((z : ℚ))) k).1 = .num ((z₁ : ℚ)) := by
  by_cases hv : valTruthy f.value = true
  · by_cases hd : valTruthy f.display_value = true
    · obtain ⟨d, hd0, hdq⟩ := hdisp hd k
      refine ⟨z + d, by omega, ?_⟩
      rw [leafStepIdx, if_pos hv, if_pos hd]
      simp only []
      rw [hdq, jsAdd_num_num]
      congr 1
      push_cast
      ring
    · obtain ⟨d, hd0, hdq⟩ := hval hv k
      refine ⟨z + d, by omega, ?_⟩
      rw [leafStepIdx, if_pos hv, if_neg hd]
      simp only []
      rw [hdq, jsAdd_num_num]
      congr 1
      push_cast
      ring
  · refine ⟨z, le_refl z, ?_⟩
    rw [leafStepIdx, if_neg hv]

/-- The leaf branch of the Idx walk preserves the lower bound: value step,
then materials. -/
theorem processLoopIdx_leaf_mono (tables : String → List Entry)
    (mats : List Material) (rand : RStream) (allowed : List String) (fuel : ℕ)
    (e : Entry) (bc mods : List String) (z : ℤ) (mv : Option ℚ)
    (fit : Option String) (pending : List String) (k : ℕ) (pr : PResult) (k₂ : ℕ)
    (hmats : MatsGood mats) (hz : 0 ≤ z) (he : GoodEntry rand e)
    (het : ¬ (e.fields.etype = some "table"))
    (h : processLoopIdx tables mats rand allowed fuel e bc mods (.num ((z : ℚ)))
      mv fit pending k = .ok (pr, k₂)) :
    ∃ z' : ℤ, z ≤ z' ∧ pr.totalValue = .num ((z' : ℚ)) := by
  rw [processLoopIdx.eq_def, if_neg het] at h
  simp only [] at h
  obtain ⟨z₁, hz1, hstep⟩ := leafStepIdx_mono rand e.fields z k hz he.1 he.2
  rw [hstep] at h
  rcases happ : applyMaterials (matSelect matWeightA) mats fit rand pending mods
      (JsNum.num ((z₁ : ℚ))) ((leafStepIdx rand e.fields (.num ((z : ℚ))) k).2)
    with _ | res
  · rw [happ] at h
    exact absurd h (by simp)
  · obtain ⟨tv2, mods2, k₃⟩ := res
    rw [happ] at h
    simp only [Except.ok.injEq, Prod.mk.injEq] at h
    obtain ⟨hpr, _⟩ := h
    obtain ⟨z', hle, htv⟩ := applyMaterials_mono (matSelect matWeightA) mats fit rand
      (fun l r m => matSelect_mem matWeightA l r m) hmats pending mods z₁
      ((leafStepIdx rand e.fields (.num ((z : ℚ))) k).2) tv2 mods2 k₃
      (hz.trans hz1) happ
    refine ⟨z', hz1.trans hle, ?_⟩
    rw [← hpr]
    exact htv

/-- The whole Idx reference walk preserves the lower bound on a
non-negative integer running total, provided every entry it can meet rolls
non-negative integers and the material data is well behaved. -/
theorem processLoopIdx_mono (tables : String → List Entry) (mats : List Material)
    (rand : RStream) (allowed : List String)
    (htab : ∀ name, ∀ x ∈ tables name, GoodEntry rand x)
    (hmats : MatsGood mats) :
    ∀ (fuel : ℕ) (e : Entry) (bc mods : List String) (z : ℤ) (mv : Option ℚ)
      (fit : Option String) (pending : List String) (k : ℕ) (pr : PResult) (k₂ : ℕ),
      0 ≤ z → GoodEntry rand e →
      processLoopIdx tables mats rand allowed fuel e bc mods (.num ((z : ℚ)))
          mv fit pending k = .ok (pr, k₂) →
      ∃ z' : ℤ, z ≤ z' ∧ pr.totalValue = .num ((z' : ℚ)) := by
  intro fuel
  induction fuel with
  | zero =>
      intro e bc mods z mv fit pending k pr k₂ hz he h
      by_cases het : e.fields.etype = some "table"
      · rw [processLoopIdx.eq_def, if_pos het] at h
        exact absurd h (by simp)
      · exact processLoopIdx_leaf_mono tables mats rand allowed 0 e bc mods z mv fit
          pending k pr k₂ hmats hz he het h
  | succ n ih =>
      intro e bc mods z mv fit pending k pr k₂ hz he h
      by_cases het : e.fields.etype = some "table"
      · rw [processLoopIdx.eq_def, if_pos het] at h
        simp only [] at h
        by_cases hmod : modTruthy e.fields.modifier = true ∧ valTruthy e.fields.value = true
        · rw [if_pos hmod] at h
          simp only [] at h
          obtain ⟨d, hd0, hdq⟩ := he.1 hmod.2 k
          rw [hdq, jsAdd_num_num] at h
          have hcast : ((z : ℚ) + ((d : ℚ))) = (((z + d : ℤ)) : ℚ) := by
            push_cast
            ring
          rw [hcast] at h
          rcases hw : weightedRandomA (tables (e.fields.name.getD "undefined")) allowed
              (rand (rollDice (e.fields.value.getD (.num 0)) rand k).2) with _ | next
          · rw [hw] at h
            exact absurd h (by simp)
          · rw [hw] at h
            simp only [] at h
            obtain ⟨z', h1, h2⟩ := ih next _ _ (z + d) _ _ _ _ _ _ (by omega)
              (htab _ next (weightedRandomA_mem _ _ _ _ hw)) h
            exact ⟨z', by omega, h2⟩
        · rw [if_neg hmod] at h
          simp only [] at h
          rcases hw : weightedRandomA (tables (e.fields.name.getD "undefined")) allowed
              (rand k) with _ | next
          · rw [hw] at h
            exact absurd h (by simp)
          · rw [hw] at h
            simp only [] at h
            obtain ⟨z', h1, h2⟩ := ih next _ _ z _ _ _ _ _ _ hz
              (htab _ next (weightedRandomA_mem _ _ _ _ hw)) h
            exact ⟨z', h1, h2⟩
      · exact processLoopIdx_leaf_mono tables mats rand allowed (n + 1) e bc mods z mv
          fit pending k pr k₂ hmats hz he het h

/-- `filterByMax` only keeps members of its input. -/
theorem filterByMax_sub (l : List Entry) (fmv : Option ℚ) :
    ∀ x ∈ filterByMax l fmv, x ∈ l := by
  intro x hx
  unfold filterByMax at hx
  cases fmv with
  | none => exact hx
  | some fv =>
      simp only [] at hx
      by_cases hv : (l.filter fun it => numTruthy it.fields.max_value &&
          decide ((it.fields.max_value.getD 0) ≤ fv)).length > 0
      · rw [if_pos hv] at hx
        exact (List.mem_filter.1 (List.mem_filter.1 hx).1).1
      · rwa [if_neg hv] at hx

/-- The V2 weighted selector only ever returns members of its input. -/
theorem weightedRandomB_mem (items : List Entry) (allowed : List String) (r : ℚ)
    (x : Entry) (h : weightedRandomB items allowed r = some x) : x ∈ items :=
  itemsToUse_sub items allowed x (selectFrom_mem _ _ _ _ h)

/-- The V2 leaf/material part preserves the lower bound on a non-negative
integer running total and returns the handed entry as its item. -/
theorem leafPartV2_mono (mats : List Material) (rand : RStream) (e : Entry)
    (bc mods : List String) (z : ℤ) (mv : Option ℚ) (fit : Option String)
    (pending : List String) (k : ℕ) (pr : PResult) (k₂ : ℕ)
    (hmats : MatsGood mats) (hz : 0 ≤ z) (he : GoodEntry rand e)
    (h : leafPartV2 mats rand e bc mods (.num ((z : ℚ))) mv fit pending k
      = .ok (pr, k₂)) :
    (∃ z' : ℤ, z ≤ z' ∧ pr.totalValue = .num ((z' : ℚ))) ∧ pr.item = some e := by
  simp only [leafPartV2] at h
  obtain ⟨z₁, hz1, hstep⟩ := leafStepIdx_mono rand e.fields z k hz he.1 he.2
  rw [hstep] at h
  rcases happ : applyMaterials (matSelect matWeightB) mats fit rand pending mods
      (JsNum.num ((z₁ : ℚ))) ((leafStepIdx rand e.fields (.num ((z : ℚ))) k).2)
    with _ | res
  · rw [happ] at h
    exact absurd h (by simp)
  · obtain ⟨tv2, mods2, k₃⟩ := res
    rw [happ] at h
    simp only [Except.ok.injEq, Prod.mk.injEq] at h
    obtain ⟨hpr, _⟩ := h
    obtain ⟨z', hle, htv⟩ := applyMaterials_mono (matSelect matWeightB) mats fit rand
      (fun l r m => matSelect_mem matWeightB l r m) hmats pending mods z₁
      ((leafStepIdx rand e.fields (.num ((z : ℚ))) k).2) tv2 mods2 k₃
      (hz.trans hz1) happ
    rw [← hpr]
    exact ⟨⟨z', hz1.trans hle, htv⟩, rfl⟩

/-- The V2 walk preserves the lower bound on a non-negative integer running
total, and every single outcome's item is a well-behaved entry: mutual
induction over `rollTable` and `processSelectedItem` of `part_002`. -/
theorem v2WalkMono (cfg : Cfg) (tables : String → List Entry)
    (mats : List Material) (rand : RStream)
    (htab : ∀ name, ∀ x ∈ tables name, GoodEntry rand x)
    (hmats : MatsGood mats) :
    ∀ fuel : ℕ,
      (∀ (tn : String) (bc mods : List String) (z : ℤ) (mv : Option ℚ)
          (fit : Option String) (k : ℕ) (r : V2Roll) (k₂ : ℕ) (pr : PResult),
          0 ≤ z →
          rollTableV2 cfg tables mats rand fuel tn bc mods (.num ((z : ℚ))) mv fit k
            = .ok (r, k₂) →
          r = .single pr →
          (∃ z' : ℤ, z ≤ z' ∧ pr.totalValue = .num ((z' : ℚ))) ∧
          (∀ e₀, pr.item = some e₀ → GoodEntry rand e₀)) ∧
      (∀ (e : Entry) (bc mods : List String) (z : ℤ) (mv : Option ℚ)
          (fit : Option String) (k : ℕ) (r : V2Roll) (k₂ : ℕ) (pr : PResult),
          0 ≤ z → GoodEntry rand e →
          processSelectedItemV2 cfg tables mats rand fuel e bc mods (.num ((z : ℚ)))
            mv fit k = .ok (r, k₂) →
          r = .single pr →
          (∃ z' : ℤ, z ≤ z' ∧ pr.totalValue = .num ((z' : ℚ))) ∧
          (∀ e₀, pr.item = some e₀ → GoodEntry rand e₀)) := by
  intro fuel
  induction fuel with
  | zero =>
      constructor
      · intro tn bc mods z mv fit k r k₂ pr hz h hpr
        rw [rollTableV2] at h
        exact absurd h (by simp)
      · intro e bc mods z mv fit k r k₂ pr hz he h hpr
        rw [processSelectedItemV2.eq_def] at h
        by_cases g1 : numTruthy cfg.userMaxValue ∧ numTruthy e.fields.max_value ∧
            (cfg.userMaxValue.getD 0) < (e.fields.max_value.getD 0)
        · rw [if_pos g1] at h
          simp only [Except.ok.injEq, Prod.mk.injEq] at h
          rw [← h.1] at hpr
          injection hpr with h2
          subst h2
          exact ⟨⟨z, le_refl z, rfl⟩, fun e₀ h₀ => absurd h₀ (by simp)⟩
        · rw [if_neg g1] at h
          by_cases g2 : cfg.userMaxValue.isSome ∧ numTruthy e.fields.min_value ∧
              (cfg.userMaxValue.getD 0) < (e.fields.min_value.getD 0)
          · rw [if_pos g2] at h
            simp only [Except.ok.injEq, Prod.mk.injEq] at h
            rw [← h.1] at hpr
            injection hpr with h2
            subst h2
            exact ⟨⟨z, le_refl z, rfl⟩, fun e₀ h₀ => absurd h₀ (by simp)⟩
          · rw [if_neg g2] at h
            by_cases het : e.fields.etype = some "table"
            · rw [if_pos het] at h
              exact absurd h (by simp)
            · rw [if_neg het] at h
              split at h
              · exact absurd h (by simp)
              · next rres k3 heq =>
                  simp only [Except.ok.injEq, Prod.mk.injEq] at h
                  rw [← h.1] at hpr
                  injection hpr with h2
                  subst h2
                  obtain ⟨hmono, hitem⟩ := leafPartV2_mono mats rand e bc mods z mv
                    fit [] k rres k3 hmats hz he heq
                  refine ⟨hmono, fun e₀ h₀ => ?_⟩
                  rw [hitem] at h₀
                  injection h₀ with h₀'
                  rw [← h₀']
                  exact he
  | succ n ih =>
      constructor
      · intro tn bc mods z mv fit k r k₂ pr hz h hpr
        rw [rollTableV2] at h
        simp only [] at h
        split at h
        · exact absurd h (by simp)
        · next sel heqSel =>
            split at h
            · next l heqItems =>
                split at h
                · exact absurd h (by simp)
                · next rs setTotal k3 heqSet =>
                    split at h <;>
                      · simp only [Except.ok.injEq, Prod.mk.injEq] at h
                        rw [← h.1] at hpr
                        exact absurd hpr (by simp)
            · next heqItems =>
                have hmem : sel ∈ tables tn :=
                  filterByMax_sub (tables tn) cfg.filterMaxValue sel
                    (weightedRandomB_mem _ _ _ _ heqSel)
                exact ih.2 sel _ _ z _ _ _ _ _ pr hz (htab _ sel hmem) h hpr
      · intro e bc mods z mv fit k r k₂ pr hz he h hpr
        rw [processSelectedItemV2.eq_def] at h
        by_cases g1 : numTruthy cfg.userMaxValue ∧ numTruthy e.fields.max_value ∧
            (cfg.userMaxValue.getD 0) < (e.fields.max_value.getD 0)
        · rw [if_pos g1] at h
          simp only [Except.ok.injEq, Prod.mk.injEq] at h
          rw [← h.1] at hpr
          injection hpr with h2
          subst h2
          exact ⟨⟨z, le_refl z, rfl⟩, fun e₀ h₀ => absurd h₀ (by simp)⟩
        · rw [if_neg g1] at h
          by_cases g2 : cfg.userMaxValue.isSome ∧ numTruthy e.fields.min_value ∧
              (cfg.userMaxValue.getD 0) < (e.fields.min_value.getD 0)
          · rw [if_pos g2] at h
            simp only [Except.ok.injEq, Prod.mk.injEq] at h
            rw [← h.1] at hpr
            injection hpr with h2
            subst h2
            exact ⟨⟨z, le_refl z, rfl⟩, fun e₀ h₀ => absurd h₀ (by simp)⟩
          · rw [if_neg g2] at h
            by_cases het : e.fields.etype = some "table"
            · rw [if_pos het] at h
              simp only [] at h
              by_cases hmod : modTruthy e.fields.modifier = true ∧
                  valTruthy e.fields.value = true
              · rw [if_pos hmod] at h
                simp only [] at h
                obtain ⟨d, hd0, hdq⟩ := he.1 hmod.2 k
                rw [hdq, jsAdd_num_num] at h
                have hcast : ((z : ℚ) + ((d : ℚ))) = (((z + d : ℤ)) : ℚ) := by
                  push_cast
                  ring
                rw [hcast] at h
                split at h
                · exact absurd h (by simp)
                · next rs2 ex2 mv2 k4 heqRT =>
                    simp only [Except.ok.injEq, Prod.mk.injEq] at h
                    rw [← h.1] at hpr
                    exact absurd hpr (by simp)
                · next nr k4 heqRT =>
                    obtain ⟨⟨z₂, hle2, hnrtv⟩, hitemG⟩ :=
                      (ih.1 _ _ _ (z + d) _ _ _ _ _ nr (by omega) heqRT rfl)
                    split at h
                    · exact absurd h (by simp)
                    · next adopted heqItem =>
                        rw [hnrtv] at h
                        split at h
                        · exact absurd h (by simp)
                        · next rres k5 heqLeaf =>
                            simp only [Except.ok.injEq, Prod.mk.injEq] at h
                            rw [← h.1] at hpr
                            injection hpr with h2
                            subst h2
                            have hGadopt : GoodEntry rand adopted :=
                              hitemG adopted heqItem
                            obtain ⟨⟨z₃, hle3, htv⟩, hitem3⟩ :=
                              leafPartV2_mono mats rand adopted nr.breadcrumb
                                nr.modifiers z₂ nr.maxValue nr.finalItemTable _ k4
                                rres k5 hmats (by omega) hGadopt heqLeaf
                            refine ⟨⟨z₃, by omega, htv⟩, fun e₀ h₀ => ?_⟩
                            rw [hitem3] at h₀
                            injection h₀ with h₀'
                            rw [← h₀']
                            exact hGadopt
              · rw [if_neg hmod] at h
                simp only [] at h
                split at h
                · exact absurd h (by simp)
                · next rs2 ex2 mv2 k4 heqRT =>
                    simp only [Except.ok.injEq, Prod.mk.injEq] at h
                    rw [← h.1] at hpr
                    exact absurd hpr (by simp)
                · next nr k4 heqRT =>
                    obtain ⟨⟨z₂, hle2, hnrtv⟩, hitemG⟩ :=
                      (ih.1 _ _ _ z _ _ _ _ _ nr hz heqRT rfl)
                    split at h
                    · exact absurd h (by simp)
                    · next adopted heqItem =>
                        rw [hnrtv] at h
                        split at h
                        · exact absurd h (by simp)
                        · next rres k5 heqLeaf =>
                            simp only [Except.ok.injEq, Prod.mk.injEq] at h
                            rw [← h.1] at hpr
                            injection hpr with h2
                            subst h2
                            have hGadopt : GoodEntry rand adopted :=
                              hitemG adopted heqItem
                            obtain ⟨⟨z₃, hle3, htv⟩, hitem3⟩ :=
                              leafPartV2_mono mats rand adopted nr.breadcrumb
                                nr.modifiers z₂ nr.maxValue nr.finalItemTable _ k4
                                rres k5 hmats (by omega) hGadopt heqLeaf
                            refine ⟨⟨z₃, by omega, htv⟩, fun e₀ h₀ => ?_⟩
                            rw [hitem3] at h₀
                            injection h₀ with h₀'
                            rw [← h₀']
                            exact hGadopt
            · rw [if_neg het] at h
              split at h
              · exact absurd h (by simp)
              · next rres k3 heq =>
                  simp only [Except.ok.injEq, Prod.mk.injEq] at h
                  rw [← h.1] at hpr
                  injection hpr with h2
                  subst h2
                  obtain ⟨hmono, hitem⟩ := leafPartV2_mono mats rand e bc mods z mv
                    fit [] k rres k3 hmats hz he heq
                  refine ⟨hmono, fun e₀ h₀ => ?_⟩
                  rw [hitem] at h₀
                  injection h₀ with h₀'
                  rw [← h₀']
                  exact he

/-- The leaf of the C9 counterexample: an entry with the negative value `-10`. -/
def c9Leaf : Entry :=
  Entry.obj { name := some "curse", value := some (.num (-10)), weight := some 1 } none

/-- The leaf of the C9 witness: a plain entry of value `5`. -/
def c9WitLeaf : Entry :=
  Entry.obj { name := some "gem", value := some (.num 5), weight := some 1 } none

/-- **C9** (counterexample to the claim as stated).  Nothing in
`processSelectedItem` keeps a leaf's `value` non-negative: resolving an
entry whose value is `-10` takes the running total from `0` down to `-10`,
so over arbitrary table data the accumulator is *not* monotonically
non-decreasing. -/
theorem c9_counterexample :
    processSelectedItemIdx (fun _ => []) [] (fun _ => 0) none [] 1 c9Leaf [] []
      (.num 0) none none 0
    = .ok (⟨some c9Leaf, [], [], .num (-10), none, false, none⟩, 0) ∧
    ((-10 : ℚ) < 0) := ⟨rfl, by norm_num⟩

/-- **C9** (amended).  Over one single-item resolution pass — in either
engine — for every table data whose entries roll non-negative integer
values (converted `display_value` rolls included), well-behaved material
data (non-negative integer additions, multipliers at least `1`), and every
random outcome, the running value accumulator never drops below its
starting value: conjunct one covers the Idx walk
(`processSelectedItemIdx`), conjunct two the V2 walk
(`processSelectedItemV2` of `part_002`, whenever the outcome is a single
item — a set outcome carries no running total of its own).  Since the
statements quantify over the starting total, every intermediate step —
table-reference value addition, leaf or `display_value` addition, material
addition, final multiplier application — is likewise non-decreasing.  With
a negative leaf `value`, a fractional total under a multiplier, or a
multiplier below `1`, monotonicity fails. -/
theorem c9_monotone :
    (∀ (tables : String → List Entry) (mats : List Material)
        (rand : RStream) (uMax : Option JsNum) (allowed : List String) (fuel : ℕ)
        (e : Entry) (bc mods : List String) (z : ℤ) (mv : Option ℚ)
        (fit : Option String) (k : ℕ) (pr : PResult) (k₂ : ℕ),
        0 ≤ z →
        (∀ name, ∀ x ∈ tables name, GoodEntry rand x) →
        MatsGood mats →
        GoodEntry rand e →
        processSelectedItemIdx tables mats rand uMax allowed fuel e bc mods
          (.num ((z : ℚ))) mv fit k = .ok (pr, k₂) →
        ∃ z' : ℤ, z ≤ z' ∧ pr.totalValue = .num ((z' : ℚ))) ∧
    (∀ (cfg : Cfg) (tables : String → List Entry) (mats : List Material)
        (rand : RStream) (fuel : ℕ) (e : Entry) (bc mods : List String) (z : ℤ)
        (mv : Option ℚ) (fit : Option String) (k : ℕ) (r : V2Roll) (k₂ : ℕ)
        (pr : PResult),
        0 ≤ z →
        (∀ name, ∀ x ∈ tables name, GoodEntry rand x) →
        MatsGood mats →
        GoodEntry rand e →
        processSelectedItemV2 cfg tables mats rand fuel e bc mods (.num ((z : ℚ)))
          mv fit k = .ok (r, k₂) →
        r = .single pr →
        ∃ z' : ℤ, z ≤ z' ∧ pr.totalValue = .num ((z' : ℚ))) := by
  constructor
  · intro tables mats rand uMax allowed fuel e bc mods z mv fit k pr k₂ hz htab
      hmats hsel hrun
    rw [processSelectedItemIdx] at hrun
    by_cases g1 : jsOptTruthy uMax = true ∧ numTruthy e.fields.max_value = true ∧
        JsNum.gtb (.num (e.fields.max_value.getD 0)) (uMax.getD .nan) = true
    · rw [if_pos g1] at hrun
      simp only [Except.ok.injEq, Prod.mk.injEq] at hrun
      obtain ⟨hpr, _⟩ := hrun
      refine ⟨z, le_refl z, ?_⟩
      rw [← hpr]
    · rw [if_neg g1] at hrun
      by_cases g2 : uMax.isSome = true ∧ numTruthy e.fields.min_value = true ∧
          JsNum.gtb (.num (e.fields.min_value.getD 0)) (uMax.getD .nan) = true
      · rw [if_pos g2] at hrun
        simp only [Except.ok.injEq, Prod.mk.injEq] at hrun
        obtain ⟨hpr, _⟩ := hrun
        refine ⟨z, le_refl z, ?_⟩
        rw [← hpr]
      · rw [if_neg g2] at hrun
        exact processLoopIdx_mono tables mats rand allowed htab hmats fuel e bc mods
          z mv fit [] k pr k₂ hz hsel hrun
  · intro cfg tables mats rand fuel e bc mods z mv fit k r k₂ pr hz htab hmats hsel
      hrun hpr
    exact ((v2WalkMono cfg tables mats rand htab hmats fuel).2 e bc mods z mv fit k
      r k₂ pr hz hsel hrun hpr).1

/-- The leaf of the V2 half of the C9 witness: a plain entry of value `7`. -/
def c9WitLeafV2 : Entry :=
  Entry.obj { name := some "ring", value := some (.num 7), weight := some 1 } none

/-- Witness for C9: a one-leaf Idx resolution of value `5` starting from
`0` ends at `5 ≥ 0`, and a one-leaf V2 resolution of value `7` ends at
`7 ≥ 0`. -/
theorem c9_monotone_witness :
    (∃ z' : ℤ, (0 : ℤ) ≤ z' ∧ (JsNum.num 5) = .num ((z' : ℚ))) ∧
    (∃ z' : ℤ, (0 : ℤ) ≤ z' ∧ (JsNum.num 7) = .num ((z' : ℚ))) := by
  constructor
  · exact c9_monotone.1 (fun _ => []) [] (fun _ => 0) none [] 1 c9WitLeaf [] [] 0 none
      none 0 (⟨some c9WitLeaf, [], [], .num 5, none, false, none⟩) 0 (by norm_num)
      (fun name x hx => absurd hx (List.not_mem_nil _))
      (fun mat hmem => absurd hmem (List.not_mem_nil _))
      ⟨fun _ k => ⟨5, by norm_num, by show JsNum.num 5 = _; norm_num⟩,
       fun hfalse => absurd hfalse (by decide)⟩
      rfl
  · exact c9_monotone.2 {} (fun _ => []) [] (fun _ => 0) 1 c9WitLeafV2 [] [] 0 none
      none 0 (.single ⟨some c9WitLeafV2, [], [], .num 7, none, false, none⟩) 0
      (⟨some c9WitLeafV2, [], [], .num 7, none, false, none⟩) (by norm_num)
      (fun name x hx => absurd hx (List.not_mem_nil _))
      (fun mat hmem => absurd hmem (List.not_mem_nil _))
      ⟨fun _ k => ⟨7, by norm_num, by show JsNum.num 7 = _; norm_num⟩,
       fun hfalse => absurd hfalse (by decide)⟩
      (by rw [processSelectedItemV2.eq_def]; rfl)
      rfl
